import Mathlib

/-!
Verification development for the report-generation pipeline of `src/app.py`
(the AI-Resume Flask service).  The pipeline is shallowly embedded: text is
`List Char`, Python dicts holding JSON data become an inductive `Json` type,
the remote chat-completion service becomes an explicit oracle of scripted
responses, and the process-wide `CACHE` dict becomes an association list
threaded through each handler.  Issued HTTP requests to the generation
service are collected in a list so that theorems can count them.
-/

namespace AIResume

/-! Named characters, written via code points for unambiguous reference
throughout the development. -/

/-- Left brace character (code point 123). -/
def lbrace : Char := Char.ofNat 123

/-- Right brace character (code point 125). -/
def rbrace : Char := Char.ofNat 125

/-- Backtick character (code point 96). -/
def btick : Char := Char.ofNat 96

/-- Double-quote character (code point 34). -/
def dquote : Char := Char.ofNat 34

/-- Backslash character (code point 92). -/
def bslash : Char := Char.ofNat 92

/-- Newline character (code point 10). -/
def nlChar : Char := Char.ofNat 10

/-- Whitespace in the sense of the Python regex class used by `re.sub` in
`_strip_json_fence` and the trailing-comma substitution (ASCII part of
Python `\s`): space, tab, newline, carriage return, form feed, vertical tab. -/
def isPyWs (c : Char) : Bool :=
  c = ' ' || c.toNat = 9 || c.toNat = 10 || c.toNat = 13 || c.toNat = 12 || c.toNat = 11

/-- Whitespace in the sense of `json.loads` (the JSON grammar): space, tab,
newline, carriage return. -/
def isJsonWs (c : Char) : Bool :=
  c = ' ' || c.toNat = 9 || c.toNat = 10 || c.toNat = 13

/-- Characters removed by the control-character substitution in
`load_json_strict` (`re.sub` over the class x00-x08, x0B, x0C, x0E-x1F). -/
def isCtrlStripped (c : Char) : Bool :=
  c.toNat ≤ 8 || c.toNat = 11 || c.toNat = 12 || (14 ≤ c.toNat && c.toNat ≤ 31)

/-- Model of Python `str.strip()` (used on raw text in `_strip_json_fence`
and on the request fields of the Flask handlers): remove leading and
trailing whitespace. -/
def pyStrip (l : List Char) : List Char :=
  ((l.dropWhile isPyWs).reverse.dropWhile isPyWs).reverse

/-! Model of the trailing-comma substitution
`re.sub(r",\s*([}\]])", r"\1", t)` from `load_json_strict` (line 35 of
`src/app.py`).  It is implemented as a left-to-right scanner with one piece
of state: after seeing a comma the scanner buffers the comma and any
following whitespace; if the next character is a closing brace or bracket
the buffered characters are dropped (the regex replacement keeps only the
bracket), otherwise everything is emitted unchanged.  The scanner is
parameterised by the whitespace class so that the same machine can be
reused on unescaped string contents, where Python's serializer leaves only
spaces unescaped. -/

/-- One scanner step.  The state is `none` (no pending match) or
`some ws` (a comma followed by the reversed whitespace run `ws` is
pending).  Returns the emitted characters and the next state. -/
def csStep (wsP : Char → Bool) (st : Option (List Char)) (c : Char) :
    List Char × Option (List Char) :=
  match st with
  | none => if c = ',' then ([], some []) else ([c], none)
  | some ws =>
    if c = rbrace || c = ']' then ([c], none)
    else if wsP c then ([], some (c :: ws))
    else if c = ',' then (',' :: ws.reverse, some [])
    else (',' :: ws.reverse ++ [c], none)

/-- Fold the scanner over a character list, returning all emitted
characters and the final state. -/
def csFold (wsP : Char → Bool) (st : Option (List Char)) :
    List Char → List Char × Option (List Char)
  | [] => ([], st)
  | c :: r =>
    let p := csStep wsP st c
    let q := csFold wsP p.2 r
    (p.1 ++ q.1, q.2)

/-- Flush a pending partial match at end of input (the regex needs a
closing bracket, so a dangling comma-plus-whitespace is emitted as is). -/
def csFinish : Option (List Char) → List Char
  | none => []
  | some ws => ',' :: ws.reverse

/-- Run the comma scanner to completion. -/
def csRun (wsP : Char → Bool) (l : List Char) : List Char :=
  let p := csFold wsP none l
  p.1 ++ csFinish p.2

/-- The trailing-comma substitution of `load_json_strict`
(`re.sub(r",\s*([}\]])", r"\1", t)`). -/
def commaSub (l : List Char) : List Char := csRun isPyWs l

/-- The control-character substitution of `load_json_strict`
(`re.sub(r"[\x00-\x08\x0B\x0C\x0E-\x1F]", "", t)`). -/
def ctrlSub (l : List Char) : List Char := l.filter (fun c => !(isCtrlStripped c))

/-! Model of the brace-span extraction `re.search(r"\{.*\}", t, flags=re.S)`
from `load_json_strict` (lines 33-34).  With DOTALL and a greedy `.*`, the
leftmost match runs from the first left brace to the last right brace of
the whole text, provided the last right brace lies strictly after the first
left brace; otherwise there is no match and the text is left unchanged. -/

/-- Index of the first left brace. -/
def firstLBrace (t : List Char) : Option Nat := t.findIdx? (· = lbrace)

/-- Index of the last right brace. -/
def lastRBrace (t : List Char) : Option Nat :=
  (t.reverse.findIdx? (· = rbrace)).map (fun k => t.length - 1 - k)

/-- The brace-span extraction: `t` is replaced by the slice from the first
left brace to the last right brace when such a (nonempty) span exists. -/
def braceSpan (t : List Char) : List Char :=
  match firstLBrace t, lastRBrace t with
  | some i, some j => if i < j then (t.drop i).take (j - i + 1) else t
  | _, _ => t

/-! Model of `_strip_json_fence` (lines 24-27):
`re.sub(r"^```(?:json)?\s*|\s*```$", "", text.strip(), flags=re.I | re.M)`.
The substitution scans positions left to right.  At a line start the first
alternative can match: three backticks, an optional case-insensitive
`json`, then a greedy whitespace run.  At any position the second
alternative can match: a greedy whitespace run followed by three backticks
that are themselves followed by a newline or the end of the text (the `$`
anchor in multiline mode).  Since whitespace characters are never
backticks, the backtracking of the greedy run cannot produce further
matches, so each alternative is decided by the maximal whitespace run.
On a match scanning resumes after the matched characters; otherwise one
character is emitted and scanning advances by one.  The `Bool` argument
tracks whether the current position is a line start (position zero or
preceded by a newline). -/

/-- Consume an optional case-insensitive `json` tag (the `(?:json)?`
group), returning the input unchanged when the full tag is absent. -/
def stripJsonCI (r : List Char) : List Char :=
  match r with
  | c1 :: r1 =>
    if c1 = 'j' || c1 = 'J' then
      match r1 with
      | c2 :: r2 =>
        if c2 = 's' || c2 = 'S' then
          match r2 with
          | c3 :: r3 =>
            if c3 = 'o' || c3 = 'O' then
              match r3 with
              | c4 :: r4 => if c4 = 'n' || c4 = 'N' then r4 else r
              | _ => r
            else r
          | _ => r
        else r
      | _ => r
    else r
  | _ => r

/-- First alternative `^```(?:json)?\s*`: three backticks, optional
case-insensitive `json`, then the maximal whitespace run.  Returns the
remaining input and whether the last consumed character was a newline. -/
def tryFenceOpen (l : List Char) : Option (List Char × Bool) :=
  match l with
  | a :: b :: c :: r =>
    if a = btick && b = btick && c = btick then
      let r2 := stripJsonCI r
      let ws := r2.takeWhile isPyWs
      some (r2.dropWhile isPyWs, ws.getLast? = some nlChar)
    else none
  | _ => none

/-- Second alternative `\s*```$`: the maximal whitespace run, three
backticks, then end of text or a newline.  Returns the remaining input. -/
def tryFenceClose (l : List Char) : Option (List Char) :=
  match l.dropWhile isPyWs with
  | a :: b :: c :: r2 =>
    if a = btick && b = btick && c = btick && (r2 = [] || r2.head? = some nlChar) then
      some r2
    else none
  | _ => none

/-- The fenced-text substitution scanner.  Fuel is structural; each
iteration consumes at least one character, so fuel equal to the input
length suffices. -/
def fenceAux : Nat → Bool → List Char → List Char
  | 0, _, l => l
  | _ + 1, _, [] => []
  | fuel + 1, lineStart, c :: r =>
    match (if lineStart then tryFenceOpen (c :: r) else none) with
    | some (rest, nl) => fenceAux fuel nl rest
    | none =>
      match tryFenceClose (c :: r) with
      | some rest => fenceAux fuel false rest
      | none => c :: fenceAux fuel (c = nlChar) r

/-- Model of `_strip_json_fence` (lines 24-27 of `src/app.py`). -/
def _strip_json_fence (text : List Char) : List Char :=
  let t := pyStrip text
  fenceAux t.length true t

/-! The JSON data model.  Python dict/list/str/int/bool/None values are
embedded as a mutual inductive; numbers are integers (floating point is
outside the embedding).  Objects are association lists, as `json.loads`
observes them member by member. -/

mutual

/-- A JSON value as handled by `json.loads` / `json.dumps` in `src/app.py`. -/
inductive Json where
  | null : Json
  | boolean (b : Bool) : Json
  | num (n : Int) : Json
  | str (s : List Char) : Json
  | arr (xs : JArr) : Json
  | obj (ms : JObj) : Json

/-- Array elements. -/
inductive JArr where
  | nil : JArr
  | cons (hd : Json) (tl : JArr) : JArr

/-- Object members. -/
inductive JObj where
  | nil : JObj
  | cons (k : List Char) (v : Json) (tl : JObj) : JObj

end

deriving instance DecidableEq for Json
deriving instance DecidableEq for JArr
deriving instance DecidableEq for JObj

/-- Escape one character the way `json.dumps` does for the characters it
can emit without `\uXXXX` notation: quote, backslash and the five named
control escapes become two-character sequences, everything else is emitted
raw. -/
def escChar (c : Char) : List Char :=
  if c = dquote then [bslash, dquote]
  else if c = bslash then [bslash, bslash]
  else if c.toNat = 10 then [bslash, 'n']
  else if c.toNat = 9 then [bslash, 't']
  else if c.toNat = 13 then [bslash, 'r']
  else if c.toNat = 8 then [bslash, 'b']
  else if c.toNat = 12 then [bslash, 'f']
  else [c]

/-- Escape a string body. -/
def escape (s : List Char) : List Char := s.flatMap escChar

/-- Decimal digits of a natural number, most significant first (fuel
variant so that concrete values reduce in the kernel; the number of
decimal digits of `n` is at most `n + 1`). -/
def natDigitsAux : Nat → Nat → List Char
  | 0, _ => []
  | fuel + 1, n =>
    if n < 10 then [Char.ofNat (48 + n)]
    else natDigitsAux fuel (n / 10) ++ [Char.ofNat (48 + n % 10)]

/-- Decimal digits of a natural number (most significant first). -/
def natDigits (n : Nat) : List Char := natDigitsAux (n + 1) n

/-- Decimal rendering of an integer. -/
def intRepr (n : Int) : List Char :=
  if n < 0 then '-' :: natDigits (-n).toNat else natDigits n.toNat

mutual

/-- Model of `json.dumps` on the embedded values (default separators:
`", "` between members and elements, `": "` after keys). -/
def dumps : Json → List Char
  | .null => ['n', 'u', 'l', 'l']
  | .boolean true => ['t', 'r', 'u', 'e']
  | .boolean false => ['f', 'a', 'l', 's', 'e']
  | .num n => intRepr n
  | .str s => dquote :: escape s ++ [dquote]
  | .arr xs => '[' :: dumpsArr xs ++ [']']
  | .obj ms => lbrace :: dumpsObj ms ++ [rbrace]

/-- Serialize array elements with `", "` separators. -/
def dumpsArr : JArr → List Char
  | .nil => []
  | .cons v .nil => dumps v
  | .cons v (.cons w tl) => dumps v ++ ',' :: ' ' :: dumpsArr (.cons w tl)

/-- Serialize object members with `", "` separators and `": "` after keys. -/
def dumpsObj : JObj → List Char
  | .nil => []
  | .cons k v .nil => dquote :: escape k ++ dquote :: ':' :: ' ' :: dumps v
  | .cons k v (.cons k2 w tl) =>
    dquote :: escape k ++ dquote :: ':' :: ' ' :: dumps v ++
      ',' :: ' ' :: dumpsObj (.cons k2 w tl)

end

/-! Model of `json.loads` (strict mode): a recursive-descent parser on the
character list.  Fuel is structural so that concrete runs reduce by
`decide`/`rfl`; fuel equal to the input length plus one always suffices
because every recursive call follows the consumption of at least one
character.  Restrictions of the embedding: numbers are integers and the
`\uXXXX` string escape is not modelled (no claim depends on either). -/

/-- Unescape the character after a backslash; `none` rejects the escape. -/
def unescChar (c : Char) : Option Char :=
  if c = dquote then some dquote
  else if c = bslash then some bslash
  else if c = '/' then some '/'
  else if c = 'n' then some nlChar
  else if c = 't' then some (Char.ofNat 9)
  else if c = 'r' then some (Char.ofNat 13)
  else if c = 'b' then some (Char.ofNat 8)
  else if c = 'f' then some (Char.ofNat 12)
  else none

/-- Parse a string body after the opening quote.  Strict mode rejects raw
control characters below code point 32. -/
def parseStrBody : List Char → Option (List Char × List Char)
  | [] => none
  | c :: r =>
    if c = dquote then some ([], r)
    else if c = bslash then
      match r with
      | [] => none
      | e :: r2 =>
        match unescChar e with
        | none => none
        | some u =>
          match parseStrBody r2 with
          | none => none
          | some (s, rest) => some (u :: s, rest)
    else if c.toNat < 32 then none
    else
      match parseStrBody r with
      | none => none
      | some (s, rest) => some (c :: s, rest)

/-- Decimal digit test on code points. -/
def isDigitB (c : Char) : Bool := 48 ≤ c.toNat && c.toNat ≤ 57

/-- Digit run value. -/
def digitsVal (ds : List Char) : Nat :=
  ds.foldl (fun a c => a * 10 + (c.toNat - 48)) 0

/-- Parse an integer literal (optional minus, then a digit run). -/
def parseNum (l : List Char) : Option (Json × List Char) :=
  match l with
  | c :: r =>
    if c = '-' then
      let ds := r.takeWhile isDigitB
      if ds = [] then none
      else some (.num (-(digitsVal ds : Int)), r.dropWhile isDigitB)
    else
      let ds := (c :: r).takeWhile isDigitB
      if ds = [] then none
      else some (.num (digitsVal ds : Int), (c :: r).dropWhile isDigitB)
  | [] => none

/-- Drop JSON whitespace. -/
def skipJWs (l : List Char) : List Char := l.dropWhile isJsonWs

/-- Consume an expected literal continuation character by character. -/
def dropLit : List Char → List Char → Option (List Char)
  | [], l => some l
  | p :: ps, c :: r => if c = p then dropLit ps r else none
  | _ :: _, [] => none

mutual

/-- Parse one JSON value (leading whitespace allowed). -/
def parseVal : Nat → List Char → Option (Json × List Char)
  | 0, _ => none
  | fuel + 1, l =>
    match skipJWs l with
    | [] => none
    | c :: r =>
      if c = lbrace then parseMembersFirst fuel r
      else if c = '[' then parseElemsFirst fuel r
      else if c = dquote then
        match parseStrBody r with
        | none => none
        | some (s, rest) => some (.str s, rest)
      else if c = 't' then
        match dropLit ['r', 'u', 'e'] r with
        | some rest => some (.boolean true, rest)
        | none => none
      else if c = 'f' then
        match dropLit ['a', 'l', 's', 'e'] r with
        | some rest => some (.boolean false, rest)
        | none => none
      else if c = 'n' then
        match dropLit ['u', 'l', 'l'] r with
        | some rest => some (.null, rest)
        | none => none
      else if c = '-' || isDigitB c then parseNum (c :: r)
      else none

/-- Parse object members directly after the opening brace (the empty
object is allowed here). -/
def parseMembersFirst : Nat → List Char → Option (Json × List Char)
  | 0, _ => none
  | fuel + 1, l =>
    match skipJWs l with
    | [] => none
    | c :: r =>
      if c = rbrace then some (.obj .nil, r)
      else if c = dquote then
        match parseMember fuel (c :: r) with
        | none => none
        | some (ms, rest) => some (.obj ms, rest)
      else none

/-- Parse one `"key": value` member (the next character must open a
string) and then the member list continuation. -/
def parseMember : Nat → List Char → Option (JObj × List Char)
  | 0, _ => none
  | fuel + 1, l =>
    match l with
    | c :: r =>
      if c = dquote then
        match parseStrBody r with
        | none => none
        | some (k, r1) =>
          match skipJWs r1 with
          | ':' :: r2 =>
            match parseVal fuel r2 with
            | none => none
            | some (v, r3) =>
              match skipJWs r3 with
              | ch :: r4 =>
                if ch = rbrace then some (.cons k v .nil, r4)
                else if ch = ',' then
                  match parseMember fuel (skipJWs r4) with
                  | none => none
                  | some (ms, rest) => some (.cons k v ms, rest)
                else none
              | [] => none
          | _ => none
      else none
    | [] => none

/-- Parse array elements directly after the opening bracket (the empty
array is allowed here). -/
def parseElemsFirst : Nat → List Char → Option (Json × List Char)
  | 0, _ => none
  | fuel + 1, l =>
    match skipJWs l with
    | [] => none
    | c :: r =>
      if c = ']' then some (.arr .nil, r)
      else
        match parseElem fuel (c :: r) with
        | none => none
        | some (xs, rest) => some (.arr xs, rest)

/-- Parse one array element and then the element list continuation. -/
def parseElem : Nat → List Char → Option (JArr × List Char)
  | 0, _ => none
  | fuel + 1, l =>
    match parseVal fuel l with
    | none => none
    | some (v, r) =>
      match skipJWs r with
      | c :: r2 =>
        if c = ']' then some (.cons v .nil, r2)
        else if c = ',' then
          match parseElem fuel r2 with
          | none => none
          | some (xs, rest) => some (.cons v xs, rest)
        else none
      | [] => none

end

/-- Model of `json.loads` on a whole text: parse one value and require the
rest to be whitespace.  The fuel `2 * length + 2` dominates the parser's
actual consumption (at most three calls per consumed delimiter character,
bounded below by two characters per nesting level). -/
def loads (t : List Char) : Option Json :=
  match parseVal (2 * t.length + 2) t with
  | none => none
  | some (v, rest) => if skipJWs rest = [] then some v else none

/-- Model of `load_json_strict` (lines 29-37 of `src/app.py`): strip the
code fence, take the first-brace-to-last-brace span when present, drop
commas before closing delimiters, drop control characters, then parse
once.  The Python `raise` on non-string input and the `json.loads`
exception are modelled by `Option`. -/
def load_json_strict (raw : List Char) : Option Json :=
  let t := _strip_json_fence raw
  let t := braceSpan t
  let t := commaSub t
  let t := ctrlSub t
  loads t

/-! The generation-service boundary.  A call to the remote chat-completion
endpoint is recorded as a `ChatCall`; the remote service's behaviour is an
oracle response consumed by the call.  The response envelope is modelled
post-decoding: an HTTP status, the raw body text (used for the truncated
diagnostic in error messages), and the list of choice contents (the
`choices[0].message.content` path of the real payload; a missing or empty
`choices` key is the empty list). -/

/-- Process configuration: whether `DEEPSEEK_API_KEY` is set. -/
structure Cfg where
  hasApiKey : Bool

/-- One scripted response of the remote service. -/
structure LLMResponse where
  status : Nat
  text : List Char
  choices : List (List Char)

/-- The errors raised by the pipeline (`RuntimeError` and the uncaught
`KeyError`/`IndexError` and `json.JSONDecodeError` paths), tagged by
source position so that `str(e)` stays injective in the model. -/
inductive Err where
  /-- `ds_chat` line 67: missing API key. -/
  | noApiKey : Err
  /-- `ds_chat` line 74: non-200 status, carrying the status and the first
  300 characters of the response body. -/
  | llmHttp (status : Nat) (payload : List Char) : Err
  /-- `ds_chat` line 78: missing or empty `choices`; the message is the
  constant `"LLM empty choices or bad payload"`, with no response data. -/
  | emptyChoices : Err
  /-- `repair_json_with_llm` line 52: non-200 status on the repair call,
  carrying the status and the first 200 characters of the body. -/
  | repairHttp (status : Nat) (payload : List Char) : Err
  /-- Uncaught exception in `repair_json_with_llm` line 53 when the repair
  response has no choices. -/
  | repairEnvelope : Err
  /-- `json.loads` failure propagating out of `repair_json_with_llm`
  line 54. -/
  | jsonDecode : Err
deriving DecidableEq

/-- Message text of an error as produced by `str(e)` in the handlers
(written from the literal f-strings of `src/app.py`; for the uncaught
exception classes the message is summarised by a tag). -/
def errMsg : Err → List Char
  | .noApiKey => "缺少 API Key：请在 Render 环境变量中配置 DEEPSEEK_API_KEY".data
  | .llmHttp st payload => "LLM HTTP ".data ++ natDigits st ++ ": ".data ++ payload
  | .emptyChoices => "LLM empty choices or bad payload".data
  | .repairHttp st payload => "JSON修复失败: HTTP ".data ++ natDigits st ++ " ".data ++ payload
  | .repairEnvelope => "KeyError: choices".data
  | .jsonDecode => "JSONDecodeError".data

/-- The structured user payload embedded in a request's user message
(the `json.dumps(payload)` argument of each call site). -/
inductive UserPayload where
  /-- Resume parsing (used by the `/parse_resume` route and by the first,
  sequential call of `full_report`). -/
  | parseResume (resume_text : List Char) : UserPayload
  /-- `task_opt` of `full_report`. -/
  | optimize (parsed : Json) (target_role target_industry : List Char) : UserPayload
  /-- `task_ats` of `full_report`. -/
  | atsScore (parsed : Json) (jd_text : List Char) : UserPayload
  /-- `task_qa` of `full_report`. -/
  | interviewQa (parsed : Json) (target_role target_industry : List Char) : UserPayload
  /-- `task_adv` of `full_report`. -/
  | careerAdvice (parsed : Json) (location : List Char) : UserPayload
  /-- The repair request of `repair_json_with_llm`, carrying the first
  12000 characters of the bad text. -/
  | repairRequest (bad_text : List Char) : UserPayload
deriving DecidableEq

/-- Whether a payload is the repair request. -/
def UserPayload.isRepair : UserPayload → Bool
  | .repairRequest _ => true
  | _ => false

/-- One issued HTTP request to the chat-completion endpoint.  `max_tokens`
is `none` when the request body carries no such field (the repair call);
`response_json` records the `response_format={"type":"json_object"}` flag;
`timeout` is the `requests.post` timeout in seconds. -/
structure ChatCall where
  payload : UserPayload
  max_tokens : Option Nat
  response_json : Bool
  timeout : Nat
deriving DecidableEq

/-- Model of `ds_chat` (lines 65-79 of `src/app.py`).  Returns the raised
error or the first choice's content, together with the list of issued
requests (empty when the API-key check raises before posting, a singleton
otherwise; the function never retries). -/
def ds_chat (cfg : Cfg) (resp : LLMResponse) (payload : UserPayload)
    (max_tokens : Nat) (response_json : Bool) (timeout : Nat) :
    Except Err (List Char) × List ChatCall :=
  if !cfg.hasApiKey then (.error .noApiKey, [])
  else
    let c : ChatCall := ⟨payload, some max_tokens, response_json, timeout⟩
    if resp.status ≠ 200 then (.error (.llmHttp resp.status (resp.text.take 300)), [c])
    else
      match resp.choices with
      | [] => (.error .emptyChoices, [c])
      | content :: _ => (.ok content, [c])

/-- Model of `repair_json_with_llm` (lines 39-54).  Posts exactly one
repair request (no API-key check, no retry), raises on a non-200 status,
crashes on a missing choice, and otherwise parses the repaired text with
`load_json_strict` — the same pipeline, with no further repair recursion.
A parse failure propagates as an error: there is no fallback object. -/
def repair_json_with_llm (resp : LLMResponse) (bad_text : List Char) :
    Except Err Json × List ChatCall :=
  let c : ChatCall := ⟨.repairRequest (bad_text.take 12000), none, false, 40⟩
  if resp.status ≠ 200 then (.error (.repairHttp resp.status (resp.text.take 200)), [c])
  else
    match resp.choices with
    | [] => (.error .repairEnvelope, [c])
    | fixed :: _ =>
      match load_json_strict fixed with
      | some j => (.ok j, [c])
      | none => (.error .jsonDecode, [c])

/-- The oracle for one `call_json` invocation: the response to the main
request and, should the repair path run, the response to the repair
request. -/
structure TaskOracle where
  main : LLMResponse
  repair : LLMResponse

/-- Model of `call_json` (lines 56-62).  The `try` in the source wraps only
`load_json_strict`, so a `ds_chat` error propagates without a repair
attempt; a parse failure triggers exactly one repair pass. -/
def call_json (cfg : Cfg) (o : TaskOracle) (payload : UserPayload)
    (max_tokens : Nat) : Except Err Json × List ChatCall :=
  match ds_chat cfg o.main payload max_tokens true 40 with
  | (.error e, cs) => (.error e, cs)
  | (.ok out, cs) =>
    match load_json_strict out with
    | some j => (.ok j, cs)
    | none =>
      let p := repair_json_with_llm o.repair out
      (p.1, cs ++ p.2)

/-! The process-wide `CACHE` dict (line 18).  The key of an entry is the
`_sig` MD5 hex digest of the canonical JSON dump of the route name plus
the normalized request fields; since the dump is injective on those
fields, `_sig` is modelled as the structured key itself (hashing is
treated as collision-free).  The stored value is either a parsed JSON
object (`/parse_resume`) or the aggregated results dict (`/full_report`). -/

/-- A cache key: the route tag together with the normalized fields that
enter the `_sig` payload at the respective call site. -/
inductive CKey where
  | parseResumeK (resume_text : List Char) : CKey
  | fullReportK (resume_text target_role location jd_text industry : List Char) : CKey
deriving DecidableEq

/-- The per-section outcome stored in the `results` dict of `full_report`:
a parsed JSON value, the `{"error": str(e)}` dict built from a caught
exception, or Python `None` (the `ats` slot when no job description was
supplied). -/
inductive RVal where
  | jsonV (j : Json) : RVal
  | errV (e : Err) : RVal
  | noneV : RVal
deriving DecidableEq

/-- The aggregated `results` dict of `full_report` (line 268). -/
structure FullResults where
  parsed : Json
  optimized : RVal
  ats : RVal
  qa : RVal
  advice : RVal
deriving DecidableEq

/-- A cached value. -/
inductive CVal where
  | jsonC (j : Json) : CVal
  | fullC (r : FullResults) : CVal
deriving DecidableEq

/-- The cache as an association list. -/
abbrev Cache := List (CKey × CVal)

/-- Dict lookup `key in CACHE` / `CACHE[key]`. -/
def cacheGet (k : CKey) (c : Cache) : Option CVal :=
  (c.find? (fun p => p.1 = k)).map (fun p => p.2)

/-- Dict assignment `CACHE[key] = value`. -/
def cacheSet (k : CKey) (v : CVal) (c : Cache) : Cache :=
  (k, v) :: c.filter (fun p => p.1 ≠ k)

/-! The `/parse_resume` route (lines 91-112). -/

/-- Response of `/parse_resume`: the cached value on a hit, fresh data on
a miss, or the `({"error": str(e)}, 500)` body from the `except` clause. -/
inductive ParseOut where
  | cachedP (v : CVal) : ParseOut
  | freshP (j : Json) : ParseOut
  | error500P (e : Err) : ParseOut
deriving DecidableEq

/-- Model of `parse_resume`: normalize the text (truncate to 25000 after
`strip`), look the key up in the cache before any generation call, and on
a miss run one `call_json`, store and return its data; a raised error
becomes the 500 response and nothing is cached. -/
def parse_resume (cfg : Cfg) (o : TaskOracle) (resume_text : List Char)
    (cache : Cache) : ParseOut × Cache × List ChatCall :=
  let text := (pyStrip resume_text).take 25000
  let key := CKey.parseResumeK text
  match cacheGet key cache with
  | some v => (.cachedP v, cache, [])
  | none =>
    match call_json cfg o (.parseResume text) 600 with
    | (.error e, cs) => (.error500P e, cache, cs)
    | (.ok data, cs) => (.freshP data, cacheSet key (.jsonC data) cache, cs)

/-! The `/full_report` route (lines 200-280). -/

/-- The request fields of `/full_report`. -/
structure Inp where
  resume_text : List Char
  target_role : List Char
  location : List Char
  jd_text : List Char
  industry : List Char

/-- Field normalization of `full_report` (lines 204-209): `strip` each
field and truncate the resume to 25000 characters. -/
def normInp (inp : Inp) : Inp :=
  { resume_text := (pyStrip inp.resume_text).take 25000
    target_role := pyStrip inp.target_role
    location := pyStrip inp.location
    jd_text := pyStrip inp.jd_text
    industry := pyStrip inp.industry }

/-- The cache key of a `full_report` request (lines 211-212). -/
def fullKey (inp : Inp) : CKey :=
  let n := normInp inp
  .fullReportK n.resume_text n.target_role n.location n.jd_text n.industry

/-- The oracle for one `full_report` request: one `TaskOracle` per
generation task.  Responses are keyed by task rather than by global call
order, which makes the model independent of the scheduling order of the
`ThreadPoolExecutor` (each HTTP response is determined by its request). -/
structure FOracle where
  parse : TaskOracle
  opt : TaskOracle
  ats : TaskOracle
  qa : TaskOracle
  adv : TaskOracle

/-- Response of `/full_report`: the cached value on a hit, the aggregated
results on completion, or the `({"error": str(e)}, 500)` body raised out
of the sequential resume-parse call. -/
inductive FullOut where
  | cachedF (v : CVal) : FullOut
  | freshF (r : FullResults) : FullOut
  | error500F (e : Err) : FullOut
deriving DecidableEq

/-- Run one pooled section task: `f.result()` exceptions are caught and
turned into `{"error": str(e)}` (lines 272-275). -/
def runTask (cfg : Cfg) (o : TaskOracle) (payload : UserPayload)
    (max_tokens : Nat) : RVal × List ChatCall :=
  match call_json cfg o payload max_tokens with
  | (.ok j, cs) => (.jsonV j, cs)
  | (.error e, cs) => (.errV e, cs)

/-- The `target_role or "General"` / `industry or "General"` defaulting of
`task_qa` (line 253-254). -/
def orGeneral (s : List Char) : List Char :=
  if s = [] then "General".data else s

/-- Model of `full_report` (lines 200-280).  The cache is consulted before
any generation call; on a hit the stored value is returned and no request
is issued.  On a miss the resume-parse call runs first and sequentially —
its error aborts the whole request via the outer `except` (nothing is
cached).  Then the four section tasks run on the pool, each catching its
own exception; `ats` is only submitted when the normalized job description
is nonempty.  The aggregate — including any per-section error payloads —
is stored under the request key and returned as one body. -/
def full_report (cfg : Cfg) (o : FOracle) (inp : Inp) (cache : Cache) :
    FullOut × Cache × List ChatCall :=
  let n := normInp inp
  let key := fullKey inp
  match cacheGet key cache with
  | some v => (.cachedF v, cache, [])
  | none =>
    match call_json cfg o.parse (.parseResume n.resume_text) 600 with
    | (.error e, cs) => (.error500F e, cache, cs)
    | (.ok parsed, cs) =>
      let opt := runTask cfg o.opt (.optimize parsed n.target_role n.industry) 850
      let ats :=
        if n.jd_text = [] then ((RVal.noneV : RVal), ([] : List ChatCall))
        else runTask cfg o.ats (.atsScore parsed n.jd_text) 750
      let qa := runTask cfg o.qa
        (.interviewQa parsed (orGeneral n.target_role) (orGeneral n.industry)) 850
      let adv := runTask cfg o.adv (.careerAdvice parsed n.location) 800
      let r : FullResults := ⟨parsed, opt.1, ats.1, qa.1, adv.1⟩
      (.freshF r, cacheSet key (.fullC r) cache, cs ++ opt.2 ++ ats.2 ++ qa.2 ++ adv.2)

/-! Level classification.  The repository under `src/` contains no
pre-analyzer and no level-classification section; the definitions below
are modelled from the spec (sections 3, 4.2 and 8) so that the claim about
the minimum-level invariant can be settled against the spec's own rules. -/

/-- Career levels in their numeric order. -/
inductive Level where
  | junior : Level
  | middle : Level
  | senior : Level
  | executive : Level
deriving DecidableEq

/-- Numeric rank of a level. -/
def Level.toNat : Level → Nat
  | .junior => 0
  | .middle => 1
  | .senior => 2
  | .executive => 3

/-- Substring test (case handled by the caller). -/
def hasSub (pat : List Char) : List Char → Bool
  | [] => pat.isPrefixOf []
  | c :: r => pat.isPrefixOf (c :: r) || hasSub pat r

/-- Lower-case a text for keyword matching. -/
def lowerText (l : List Char) : List Char := l.map Char.toLower

/-- Whether any of the keywords occurs in the lower-cased text. -/
def containsAny (kws : List (List Char)) (text : List Char) : Bool :=
  kws.any (fun k => hasSub k (lowerText text))

/-- Modelled from the spec: the explicit executive-tier keywords of the
minimum-level-anchor cascade ("e.g., vice-president/chief/partner"). -/
def execKeywords : List (List Char) :=
  ["vice president".data, "vice-president".data, "chief".data, "partner".data]

/-- Modelled from the spec: the doctorate and director/head-level keywords
that force at least "Senior". -/
def seniorKeywords : List (List Char) :=
  ["doctorate".data, "phd".data, "director".data, "head of".data]

/-- Modelled from the spec: `minimum_level_anchor` of the pre-analysis
(spec 4.2), absent from `src/`: executive-tier keywords force "Executive";
doctorate or director/head-level keywords force at least "Senior"; tenure
of six or more years forces at least "Middle"; tenure of three or more
years forces at least "Middle" as a floor; otherwise "Junior".  The
executive-keyword rule takes precedence over all weaker anchors. -/
def minimum_level_anchor (resume_text : List Char) (tenure_span : Nat) : Level :=
  if containsAny execKeywords resume_text then .executive
  else if containsAny seniorKeywords resume_text then .senior
  else if 6 ≤ tenure_span then .middle
  else if 3 ≤ tenure_span then .middle
  else .junior

/-- Modelled from the spec: the orchestrator's level resolution for the
level-classification section, absent from `src/`: when the upstream
service proposes a level below the anchor, the anchor replaces it and an
explanatory note is appended (the `Bool` component). -/
def resolve_level (proposed anchor : Level) : Level × Bool :=
  if proposed.toNat < anchor.toNat then (anchor, true) else (proposed, false)

/-! A second extractor definition, written from the words of the claim
about `load_json_strict` rather than from the code: the recovery steps are
attempted sequentially, each step only when the previous parse failed.
It reuses the code's individual transformations for the single steps and
exists solely to be compared with `load_json_strict`. -/

/-- Sequential-cascade extractor following the claim's words: parse the
fence-stripped text directly; only on failure parse the brace span; only
on failure additionally strip trailing commas and retry; only on failure
additionally strip control characters and retry. -/
def extractor_claim (raw : List Char) : Option Json :=
  let t := _strip_json_fence raw
  match loads t with
  | some j => some j
  | none =>
    let t2 := braceSpan t
    match loads t2 with
    | some j => some j
    | none =>
      let t3 := commaSub t2
      match loads t3 with
      | some j => some j
      | none => loads (ctrlSub t3)

/-! Concrete fixtures used by witnesses and counterexamples. -/

/-- A small JSON object. -/
def jOk : Json := .obj (.cons ['o', 'k'] (.num 1) .nil)

/-- A healthy response whose content is the dump of `jOk`. -/
def respOkSmall : LLMResponse := ⟨200, [], [dumps jOk]⟩

/-- A task oracle that answers every request healthily. -/
def oracleGood : TaskOracle := ⟨respOkSmall, respOkSmall⟩

/-- A full-report oracle that answers every request healthily. -/
def foGood : FOracle := ⟨oracleGood, oracleGood, oracleGood, oracleGood, oracleGood⟩

/-- A full-report oracle whose resume-parse request fails with HTTP 500. -/
def foBadParse : FOracle :=
  ⟨⟨⟨500, "parse down".data, []⟩, respOkSmall⟩, oracleGood, oracleGood, oracleGood, oracleGood⟩

/-- A full-report oracle whose interview-handbook task fails with HTTP 500
while every other task succeeds. -/
def foBadQa : FOracle :=
  ⟨oracleGood, oracleGood, oracleGood, ⟨⟨500, "qa down".data, []⟩, respOkSmall⟩, oracleGood⟩

/-- A request with a resume and no job description. -/
def inpPlain : Inp := ⟨"resume text".data, [], [], [], []⟩

/-- A request with a resume and a job description. -/
def inpWithJd : Inp := ⟨"resume text".data, [], [], "jd text".data, []⟩

/-- The raw blob of the extractor comparison: a well-formed object whose
string value contains a comma followed by a closing brace. -/
def rawCommaBrace : List Char :=
  [lbrace, dquote, 'a', dquote, ':', ' ', dquote, ',', rbrace, dquote, rbrace]

/-! Helper lemmas about the shape of issued call lists. -/

/-- Every request issued by one `ds_chat` invocation is the single request
built from its arguments. -/
theorem ds_chat_call_mem (cfg : Cfg) (resp : LLMResponse) (p : UserPayload)
    (mt : Nat) (rj : Bool) (tmo : Nat) (c : ChatCall)
    (hc : c ∈ (ds_chat cfg resp p mt rj tmo).2) : c = ⟨p, some mt, rj, tmo⟩ := by
  by_cases hk : cfg.hasApiKey
  · by_cases hs : resp.status = 200
    · rcases hch : resp.choices with _ | ⟨content, tl⟩ <;>
        simp_all [ds_chat]
    · simp_all [ds_chat]
  · simp_all [ds_chat]

/-- The repair call always issues exactly the single repair request. -/
theorem repair_snd (resp : LLMResponse) (bad : List Char) :
    (repair_json_with_llm resp bad).2
      = [⟨.repairRequest (bad.take 12000), none, false, 40⟩] := by
  simp only [repair_json_with_llm]
  split
  · rfl
  · split
    · rfl
    · split <;> rfl

/-- Every request issued by one `call_json` invocation carries the fixed
40-second timeout. -/
theorem call_json_timeout (cfg : Cfg) (o : TaskOracle) (p : UserPayload)
    (mt : Nat) (c : ChatCall) (hc : c ∈ (call_json cfg o p mt).2) :
    c.timeout = 40 := by
  simp only [call_json] at hc
  rcases hd : ds_chat cfg o.main p mt true 40 with ⟨res, cs⟩
  rw [hd] at hc
  cases res with
  | error e =>
    simp only at hc
    have := ds_chat_call_mem cfg o.main p mt true 40 c (by rw [hd]; exact hc)
    rw [this]
  | ok out =>
    simp only at hc
    rcases hl : load_json_strict out with _ | j <;> rw [hl] at hc
    · simp only [List.mem_append] at hc
      rcases hc with hc | hc
      · have := ds_chat_call_mem cfg o.main p mt true 40 c (by rw [hd]; exact hc)
        rw [this]
      · rw [repair_snd] at hc
        simp only [List.mem_singleton] at hc
        rw [hc]
    · have := ds_chat_call_mem cfg o.main p mt true 40 c (by rw [hd]; exact hc)
      rw [this]

/-- With an API key configured, the call list of `call_json` starts with
the main request built from its arguments. -/
theorem call_json_cons (o : TaskOracle) (p : UserPayload) (mt : Nat) :
    ∃ rest, (call_json ⟨true⟩ o p mt).2 = ⟨p, some mt, true, 40⟩ :: rest := by
  by_cases h : o.main.status = 200
  · rcases hch : o.main.choices with _ | ⟨content, tl⟩
    · exact ⟨[], by simp [call_json, ds_chat, h, hch]⟩
    · rcases hls : load_json_strict content with _ | j
      · exact ⟨(repair_json_with_llm o.repair content).2,
          by simp [call_json, ds_chat, h, hch, hls]⟩
      · exact ⟨[], by simp [call_json, ds_chat, h, hch, hls]⟩
  · exact ⟨[], by simp [call_json, ds_chat, h]⟩

/-! Claim C6. -/

/-- Claim C6: the level-classification section's resolved level is never
numerically lower than the pre-analysis `minimum_level_anchor`; a lower
upstream proposal is overridden (with an explanatory note appended), and a
resume containing the executive-tier keyword "Vice President" resolves to
"Executive" regardless of the proposal.  The pre-analyzer and the level
resolution are absent from `src/` and are modelled from the spec. -/
theorem claim_C6_min_level_anchor :
    (∀ (p : Level) (resume : List Char) (tenure : Nat),
        (minimum_level_anchor resume tenure).toNat ≤
          (resolve_level p (minimum_level_anchor resume tenure)).1.toNat)
    ∧ (∀ p a : Level,
        (resolve_level p a).1.toNat = max p.toNat a.toNat
        ∧ (resolve_level p a).2 = decide (p.toNat < a.toNat))
    ∧ (∀ (p : Level) (tenure : Nat),
        (resolve_level p (minimum_level_anchor "Vice President".data tenure)).1
          = .executive) := by
  refine ⟨?_, ?_, ?_⟩
  · intro p resume tenure
    simp only [resolve_level]
    split
    · simp
    · simp only []
      omega
  · intro p a
    cases p <;> cases a <;> simp [resolve_level, Level.toNat]
  · intro p tenure
    have h : containsAny execKeywords "Vice President".data = true := by decide
    simp only [minimum_level_anchor, h]
    cases p <;> simp [resolve_level, Level.toNat]

/-! Claim C9. -/

/-- Claim C9 (amended): every request issued through `call_json` carries
the fixed 40-second timeout; `ds_chat` issues exactly one request per
invocation (no internal retry); a non-success status raises an error
carrying the status and the first 300 characters of the body; a success
status with missing or empty `choices` raises the fixed
`"LLM empty choices or bad payload"` error, which carries no part of the
response. -/
theorem claim_C9_amended :
    (∀ (cfg : Cfg) (o : TaskOracle) (p : UserPayload) (mt : Nat),
        ∀ c ∈ (call_json cfg o p mt).2, c.timeout = 40)
    ∧ (∀ (resp : LLMResponse) (p : UserPayload) (mt : Nat) (rj : Bool) (tmo : Nat),
        (ds_chat ⟨true⟩ resp p mt rj tmo).2 = [⟨p, some mt, rj, tmo⟩]
        ∧ (resp.status ≠ 200 →
            (ds_chat ⟨true⟩ resp p mt rj tmo).1
              = .error (.llmHttp resp.status (resp.text.take 300)))
        ∧ (resp.status = 200 → resp.choices = [] →
            (ds_chat ⟨true⟩ resp p mt rj tmo).1 = .error .emptyChoices)) := by
  constructor
  · exact fun cfg o p mt c hc => call_json_timeout cfg o p mt c hc
  · intro resp p mt rj tmo
    refine ⟨?_, ?_, ?_⟩
    · by_cases hs : resp.status = 200
      · rcases hch : resp.choices with _ | ⟨content, tl⟩ <;> simp [ds_chat, hs, hch]
      · simp [ds_chat, hs]
    · intro h
      simp [ds_chat, h]
    · intro h h2
      simp [ds_chat, h, h2]

/-- Claim C9 counterexample: on a success status with an empty `choices`
list, the raised error is entirely independent of the response body — two
responses with different bodies produce the identical error — so the
malformed-envelope error carries no truncated diagnostic payload, contrary
to the claim. -/
theorem claim_C9_counterexample :
    ds_chat ⟨true⟩ ⟨200, "a long diagnostic body".data, []⟩ (.parseResume ['r']) 600 true 40
      = ds_chat ⟨true⟩ ⟨200, [], []⟩ (.parseResume ['r']) 600 true 40
    ∧ (ds_chat ⟨true⟩ ⟨200, "a long diagnostic body".data, []⟩ (.parseResume ['r']) 600 true 40).1
      = .error .emptyChoices
    ∧ errMsg .emptyChoices = "LLM empty choices or bad payload".data :=
  ⟨rfl, rfl, rfl⟩

/-- Claim C9 witness: the amended theorem applied at concrete responses. -/
theorem claim_C9_witness :
    (∀ c ∈ (call_json ⟨true⟩ ⟨⟨500, ['x'], []⟩, ⟨200, [], [['1']]⟩⟩ (.parseResume ['r']) 600).2,
        c.timeout = 40)
    ∧ (ds_chat ⟨true⟩ ⟨500, ['x'], []⟩ (.parseResume ['r']) 600 true 40).1
      = .error (.llmHttp 500 ['x'])
    ∧ (ds_chat ⟨true⟩ ⟨200, ['x'], []⟩ (.parseResume ['r']) 600 true 40).1
      = .error .emptyChoices :=
  ⟨claim_C9_amended.1 _ _ _ _,
   (claim_C9_amended.2 ⟨500, ['x'], []⟩ _ 600 true 40).2.1 (by decide),
   (claim_C9_amended.2 ⟨200, ['x'], []⟩ _ 600 true 40).2.2 rfl rfl⟩

/-! Claim C4. -/

/-- Claim C4 (amended): when every local extraction attempt fails,
exactly one repair request is issued (appended to the main request) and
its response is parsed with the same `load_json_strict` pipeline with no
further repair recursion; but when the repair also fails — a non-success
status or a second parse failure — the error propagates to the caller:
no fallback object with a truncated preview is produced. -/
theorem claim_C4_amended :
    ∀ (cfg : Cfg) (o : TaskOracle) (p : UserPayload) (mt : Nat)
      (out : List Char) (cs : List ChatCall),
      ds_chat cfg o.main p mt true 40 = (.ok out, cs) →
      load_json_strict out = none →
      (call_json cfg o p mt).2
          = cs ++ [⟨.repairRequest (out.take 12000), none, false, 40⟩]
      ∧ (o.repair.status = 200 → ∀ fixed rest, o.repair.choices = fixed :: rest →
          (call_json cfg o p mt).1
            = match load_json_strict fixed with
              | some j => .ok j
              | none => .error .jsonDecode)
      ∧ (o.repair.status ≠ 200 →
          (call_json cfg o p mt).1
            = .error (.repairHttp o.repair.status (o.repair.text.take 200))) := by
  intro cfg o p mt out cs hmain hparse
  have hcall : call_json cfg o p mt
      = ((repair_json_with_llm o.repair out).1,
         cs ++ (repair_json_with_llm o.repair out).2) := by
    simp only [call_json, hmain, hparse]
  refine ⟨?_, ?_, ?_⟩
  · rw [hcall, repair_snd]
  · intro h200 fixed rest hch
    rw [hcall]
    rcases hl : load_json_strict fixed with _ | j <;>
      simp [repair_json_with_llm, h200, hch, hl]
  · intro hbad
    rw [hcall]
    simp [repair_json_with_llm, hbad]

/-- Claim C4 counterexample: with both the main response and the repair
response unparseable, `call_json` propagates a decode error after exactly
one repair request — it does not return a fallback object containing a
preview of the raw text. -/
theorem claim_C4_counterexample :
    call_json ⟨true⟩ ⟨⟨200, [], ["not json".data]⟩, ⟨200, [], ["still not json".data]⟩⟩
        (.parseResume ['r']) 600
      = (.error .jsonDecode,
         [⟨.parseResume ['r'], some 600, true, 40⟩,
          ⟨.repairRequest "not json".data, none, false, 40⟩]) := rfl

/-- Claim C4 witness: the amended theorem applied at a concrete oracle
whose repair response parses. -/
theorem claim_C4_witness :
    (call_json ⟨true⟩ ⟨⟨200, [], ["bad".data]⟩, respOkSmall⟩ (.parseResume ['r']) 600).2
        = [⟨.parseResume ['r'], some 600, true, 40⟩]
          ++ [⟨.repairRequest "bad".data, none, false, 40⟩]
    ∧ (call_json ⟨true⟩ ⟨⟨200, [], ["bad".data]⟩, respOkSmall⟩ (.parseResume ['r']) 600).1
        = match load_json_strict (dumps jOk) with
          | some j => .ok j
          | none => .error .jsonDecode :=
  ⟨(claim_C4_amended ⟨true⟩ ⟨⟨200, [], ["bad".data]⟩, respOkSmall⟩
      (.parseResume ['r']) 600 "bad".data _ rfl rfl).1,
   (claim_C4_amended ⟨true⟩ ⟨⟨200, [], ["bad".data]⟩, respOkSmall⟩
      (.parseResume ['r']) 600 "bad".data _ rfl rfl).2.1 rfl (dumps jOk) [] rfl⟩

/-! Claim C3. -/

/-- Claim C3 counterexample: on the blob whose object holds the string
value comma-brace, the sequential cascade described by the claim parses
the fence-stripped text directly and returns the original value, while
`load_json_strict` applies the trailing-comma substitution
unconditionally — even though the direct parse succeeds — and returns a
different object.  The steps are therefore not attempted only on failure
of the previous parse. -/
theorem claim_C3_counterexample :
    extractor_claim rawCommaBrace = some (.obj (.cons ['a'] (.str [',', rbrace]) .nil))
    ∧ load_json_strict rawCommaBrace = some (.obj (.cons ['a'] (.str [rbrace]) .nil))
    ∧ extractor_claim rawCommaBrace ≠ load_json_strict rawCommaBrace := by
  refine ⟨rfl, rfl, ?_⟩
  intro h
  rw [show extractor_claim rawCommaBrace
        = some (.obj (.cons ['a'] (.str [',', rbrace]) .nil)) from rfl,
      show load_json_strict rawCommaBrace
        = some (.obj (.cons ['a'] (.str [rbrace]) .nil)) from rfl] at h
  exact absurd h (by decide)

/-- Claim C3 (amended): the extractor applies its transformations
unconditionally and in a fixed order — fence strip, brace-span extraction,
trailing-comma removal, control-character removal — and performs exactly
one parse, of the fully transformed text; no intermediate parse result is
consulted. -/
theorem claim_C3_amended :
    ∀ raw : List Char,
      load_json_strict raw
        = loads (ctrlSub (commaSub (braceSpan (_strip_json_fence raw)))) :=
  fun _ => rfl

/-! Claim C7. -/

/-- Claim C7 (amended): `full_report` performs no input validation.  For
every request — including a missing or arbitrarily short resume — the
handler, run against an empty cache, dispatches the resume-parse
generation request (the first issued call), whose payload is the resume
text altered only by `strip` and truncation to 25000 characters.  There
is no validation-error response and no minimum-length threshold. -/
theorem claim_C7_amended :
    ∀ (o : FOracle) (inp : Inp),
      ((full_report ⟨true⟩ o inp []).2.2.head?.map (fun c => c.payload))
        = some (.parseResume ((pyStrip inp.resume_text).take 25000)) := by
  intro o inp
  have hkey : cacheGet (fullKey inp) ([] : Cache) = none := rfl
  obtain ⟨rest, hrest⟩ :=
    call_json_cons o.parse (.parseResume (normInp inp).resume_text) 600
  rcases hp : call_json ⟨true⟩ o.parse (.parseResume (normInp inp).resume_text) 600
    with ⟨res, cs⟩
  have hcs : cs = ⟨.parseResume (normInp inp).resume_text, some 600, true, 40⟩ :: rest := by
    rw [hp] at hrest; exact hrest
  cases res with
  | error e =>
    simp only [full_report, hkey, hp]
    simp [hcs, normInp]
  | ok parsed =>
    simp only [full_report, hkey, hp]
    simp [hcs, normInp]

/-- Claim C7 counterexample: a request with an empty resume text is not
rejected: it dispatches four generation requests (resume parse plus the
three tasks submitted without a job description) and completes with a
normal aggregated response rather than a validation error. -/
theorem claim_C7_counterexample :
    (full_report ⟨true⟩ foGood ⟨[], [], [], [], []⟩ []).2.2.length = 4
    ∧ (full_report ⟨true⟩ foGood ⟨[], [], [], [], []⟩ []).1
      = .freshF ⟨jOk, .jsonV jOk, .noneV, .jsonV jOk, .jsonV jOk⟩ :=
  ⟨rfl, rfl⟩

/-! Claim C5. -/

/-- Claim C5 counterexample: a concrete completed request delivers every
section's outcome in one aggregated response value — a single blob, not a
sequence of per-section events, and with no separate completion event. -/
theorem claim_C5_counterexample :
    (full_report ⟨true⟩ foGood inpWithJd []).1
      = .freshF ⟨jOk, .jsonV jOk, .jsonV jOk, .jsonV jOk, .jsonV jOk⟩ := rfl

/-- Claim C5 (amended): for every request, `full_report` returns exactly
one response body — the cached value, the aggregated results dict, or the
error body of the outer exception handler.  There is no incremental
delivery and no completion event. -/
theorem claim_C5_amended :
    ∀ (cfg : Cfg) (o : FOracle) (inp : Inp) (cache : Cache),
      (∃ v, (full_report cfg o inp cache).1 = .cachedF v)
      ∨ (∃ r, (full_report cfg o inp cache).1 = .freshF r)
      ∨ (∃ e, (full_report cfg o inp cache).1 = .error500F e) := by
  intro cfg o inp cache
  rcases h : (full_report cfg o inp cache).1 with v | r | e
  · exact .inl ⟨v, rfl⟩
  · exact .inr (.inl ⟨r, rfl⟩)
  · exact .inr (.inr ⟨e, rfl⟩)

/-! Claims C1 and C10. -/

/-- Looking a key up right after storing it yields the stored value. -/
theorem cacheGet_set_self (k : CKey) (v : CVal) (c : Cache) :
    cacheGet k (cacheSet k v c) = some v := by
  simp [cacheGet, cacheSet, List.find?_cons]

/-- Inversion of a completed (fresh) `full_report` run: the request was a
cache miss and the returned cache stores the returned results under the
request's key. -/
theorem full_report_fresh_inv (cfg : Cfg) (o : FOracle) (inp : Inp)
    (cache : Cache) (r : FullResults) (c1 : Cache) (cs : List ChatCall)
    (h : full_report cfg o inp cache = (.freshF r, c1, cs)) :
    cacheGet (fullKey inp) cache = none
    ∧ c1 = cacheSet (fullKey inp) (.fullC r) cache := by
  rcases hg : cacheGet (fullKey inp) cache with _ | v
  · rcases hp : call_json cfg o.parse (.parseResume (normInp inp).resume_text) 600
      with ⟨res, cs0⟩
    cases res with
    | error e =>
      simp only [full_report, hg, hp] at h
      simp at h
    | ok parsed =>
      simp only [full_report, hg, hp] at h
      simp only [Prod.mk.injEq, FullOut.freshF.injEq] at h
      refine ⟨rfl, ?_⟩
      rw [← h.2.1, ← h.1]
  · simp only [full_report, hg] at h
    simp at h

/-- Inversion of a completed (fresh) `parse_resume` run. -/
theorem parse_resume_fresh_inv (cfg : Cfg) (o : TaskOracle) (t : List Char)
    (cache : Cache) (j : Json) (c1 : Cache) (cs : List ChatCall)
    (h : parse_resume cfg o t cache = (.freshP j, c1, cs)) :
    c1 = cacheSet (CKey.parseResumeK ((pyStrip t).take 25000)) (.jsonC j) cache := by
  rcases hg : cacheGet (CKey.parseResumeK ((pyStrip t).take 25000)) cache with _ | v
  · rcases hp : call_json cfg o (.parseResume ((pyStrip t).take 25000)) 600
      with ⟨res, cs0⟩
    cases res with
    | error e =>
      simp only [parse_resume, hg, hp] at h
      simp at h
    | ok d =>
      simp only [parse_resume, hg, hp] at h
      simp only [Prod.mk.injEq, ParseOut.freshP.injEq] at h
      rw [← h.2.1, ← h.1]
  · simp only [parse_resume, hg] at h
    simp at h

/-- Claim C1: once a request has completed, a request with identical
normalized inputs is a cache hit: the stored result is returned unchanged,
zero generation-service requests are issued (for any state of the service,
even an unreachable one), and the lookup precedes any generation call.
Stated for `full_report` and for `parse_resume`. -/
theorem claim_C1_cache_reuse :
    (∀ (cfg cfg2 : Cfg) (o o2 : FOracle) (inp inp2 : Inp) (cache : Cache)
       (r : FullResults) (c1 : Cache) (cs : List ChatCall),
        full_report cfg o inp cache = (.freshF r, c1, cs) →
        normInp inp2 = normInp inp →
        full_report cfg2 o2 inp2 c1 = (.cachedF (.fullC r), c1, []))
    ∧ (∀ (cfg cfg2 : Cfg) (o o2 : TaskOracle) (t t2 : List Char) (cache : Cache)
        (j : Json) (c1 : Cache) (cs : List ChatCall),
        parse_resume cfg o t cache = (.freshP j, c1, cs) →
        pyStrip t2 = pyStrip t →
        parse_resume cfg2 o2 t2 c1 = (.cachedP (.jsonC j), c1, [])) := by
  constructor
  · intro cfg cfg2 o o2 inp inp2 cache r c1 cs h hn
    obtain ⟨hg, hc1⟩ := full_report_fresh_inv cfg o inp cache r c1 cs h
    have hkey : fullKey inp2 = fullKey inp := by simp [fullKey, hn]
    have hget : cacheGet (fullKey inp2) c1 = some (.fullC r) := by
      rw [hkey, hc1, cacheGet_set_self]
    simp [full_report, hget]
  · intro cfg cfg2 o o2 t t2 cache j c1 cs h hn
    have hc1 := parse_resume_fresh_inv cfg o t cache j c1 cs h
    have hget : cacheGet (CKey.parseResumeK ((pyStrip t2).take 25000)) c1
        = some (.jsonC j) := by
      rw [hn, hc1, cacheGet_set_self]
    simp [parse_resume, hget]

/-- Claim C1 witness: a completed `full_report` run and a completed
`parse_resume` run are replayed against oracles whose every response is a
failure; the cached results come back unchanged with zero issued calls. -/
theorem claim_C1_witness :
    full_report ⟨true⟩ foBadParse inpPlain (full_report ⟨true⟩ foGood inpPlain []).2.1
      = (.cachedF (.fullC ⟨jOk, .jsonV jOk, .noneV, .jsonV jOk, .jsonV jOk⟩),
         (full_report ⟨true⟩ foGood inpPlain []).2.1, [])
    ∧ parse_resume ⟨true⟩ ⟨⟨500, [], []⟩, ⟨500, [], []⟩⟩ "abc".data
        (parse_resume ⟨true⟩ oracleGood "abc".data []).2.1
      = (.cachedP (.jsonC jOk), (parse_resume ⟨true⟩ oracleGood "abc".data []).2.1, []) :=
  ⟨claim_C1_cache_reuse.1 ⟨true⟩ ⟨true⟩ foGood foBadParse inpPlain inpPlain []
      ⟨jOk, .jsonV jOk, .noneV, .jsonV jOk, .jsonV jOk⟩ _ _ rfl rfl,
   claim_C1_cache_reuse.2 ⟨true⟩ ⟨true⟩ oracleGood ⟨⟨500, [], []⟩, ⟨500, [], []⟩⟩
      "abc".data "abc".data [] jOk _ _ rfl rfl⟩

/-- Claim C10: when a completed `full_report` run contains a per-section
error payload, the aggregate — error payloads included — is stored in the
cache under the request's key, and an identical later request returns the
cached aggregate without issuing any generation request. -/
theorem claim_C10_error_caching :
    ∀ (cfg cfg2 : Cfg) (o o2 : FOracle) (inp : Inp) (cache : Cache)
      (r : FullResults) (c1 : Cache) (cs : List ChatCall) (e : Err),
      full_report cfg o inp cache = (.freshF r, c1, cs) →
      (r.optimized = .errV e ∨ r.ats = .errV e ∨ r.qa = .errV e ∨ r.advice = .errV e) →
      cacheGet (fullKey inp) c1 = some (.fullC r)
      ∧ full_report cfg2 o2 inp c1 = (.cachedF (.fullC r), c1, []) := by
  intro cfg cfg2 o o2 inp cache r c1 cs e h _herr
  obtain ⟨hg, hc1⟩ := full_report_fresh_inv cfg o inp cache r c1 cs h
  have hget : cacheGet (fullKey inp) c1 = some (.fullC r) := by
    rw [hc1, cacheGet_set_self]
  exact ⟨hget, by simp [full_report, hget]⟩

/-- Claim C10 witness: a run whose interview-handbook task failed with
HTTP 500 stores the aggregate including the error payload, and an
identical request replayed against a healthy service still returns the
cached error payload with zero issued calls. -/
theorem claim_C10_witness :
    cacheGet (fullKey inpPlain) (full_report ⟨true⟩ foBadQa inpPlain []).2.1
      = some (.fullC ⟨jOk, .jsonV jOk, .noneV,
          .errV (.llmHttp 500 "qa down".data), .jsonV jOk⟩)
    ∧ full_report ⟨true⟩ foGood inpPlain (full_report ⟨true⟩ foBadQa inpPlain []).2.1
      = (.cachedF (.fullC ⟨jOk, .jsonV jOk, .noneV,
          .errV (.llmHttp 500 "qa down".data), .jsonV jOk⟩),
         (full_report ⟨true⟩ foBadQa inpPlain []).2.1, []) :=
  claim_C10_error_caching ⟨true⟩ ⟨true⟩ foBadQa foGood inpPlain []
    ⟨jOk, .jsonV jOk, .noneV, .errV (.llmHttp 500 "qa down".data), .jsonV jOk⟩
    _ _ (.llmHttp 500 "qa down".data) rfl (Or.inr (Or.inr (Or.inl rfl)))

/-! Claim C2. -/

/-- Claim C2 counterexample: there is an input on which a single section's
generation failure escalates to a whole-request failure.  When the
sequential resume-parse call fails with HTTP 500, `full_report` answers
with the 500 error body of its outer exception handler: no sibling section
runs, nothing is cached, and the request does not complete normally. -/
theorem claim_C2_counterexample :
    full_report ⟨true⟩ foBadParse inpPlain []
      = (.error500F (.llmHttp 500 "parse down".data), [],
         [⟨.parseResume "resume text".data, some 600, true, 40⟩]) := rfl

/-- Claim C2 (amended): once the sequential resume-parse call has
succeeded, the failure of any of the four pooled section tasks is caught
per task: the request completes normally and every sibling slot is
determined by its own task's oracle alone.  A failure of the resume-parse
call itself, however, aborts the whole request (see the counterexample). -/
theorem claim_C2_amended :
    ∀ (cfg : Cfg) (o : FOracle) (inp : Inp) (cache : Cache) (j : Json)
      (cs0 : List ChatCall),
      cacheGet (fullKey inp) cache = none →
      call_json cfg o.parse (.parseResume (normInp inp).resume_text) 600 = (.ok j, cs0) →
      ∃ r : FullResults,
        (full_report cfg o inp cache).1 = .freshF r
        ∧ r.parsed = j
        ∧ r.optimized = (runTask cfg o.opt
            (.optimize j (normInp inp).target_role (normInp inp).industry) 850).1
        ∧ r.ats = (if (normInp inp).jd_text = [] then RVal.noneV
            else (runTask cfg o.ats (.atsScore j (normInp inp).jd_text) 750).1)
        ∧ r.qa = (runTask cfg o.qa (.interviewQa j
            (orGeneral (normInp inp).target_role) (orGeneral (normInp inp).industry)) 850).1
        ∧ r.advice = (runTask cfg o.adv (.careerAdvice j (normInp inp).location) 800).1 := by
  intro cfg o inp cache j cs0 hmiss hp
  have hfr : (full_report cfg o inp cache).1 = .freshF
      ⟨j,
       (runTask cfg o.opt (.optimize j (normInp inp).target_role (normInp inp).industry) 850).1,
       (if (normInp inp).jd_text = [] then ((RVal.noneV : RVal), ([] : List ChatCall))
        else runTask cfg o.ats (.atsScore j (normInp inp).jd_text) 750).1,
       (runTask cfg o.qa (.interviewQa j
          (orGeneral (normInp inp).target_role) (orGeneral (normInp inp).industry)) 850).1,
       (runTask cfg o.adv (.careerAdvice j (normInp inp).location) 800).1⟩ := by
    simp only [full_report, hmiss, hp]
  refine ⟨_, hfr, rfl, rfl, ?_, rfl, rfl⟩
  by_cases hjd : (normInp inp).jd_text = [] <;> simp [hjd]

/-- Claim C2 witness: the amended theorem applied at a concrete request
whose interview-handbook task fails while all other tasks succeed. -/
theorem claim_C2_witness :
    ∃ r : FullResults,
      (full_report ⟨true⟩ foBadQa inpPlain []).1 = .freshF r
      ∧ r.parsed = jOk
      ∧ r.optimized = (runTask ⟨true⟩ foBadQa.opt
          (.optimize jOk (normInp inpPlain).target_role (normInp inpPlain).industry) 850).1
      ∧ r.ats = (if (normInp inpPlain).jd_text = [] then RVal.noneV
          else (runTask ⟨true⟩ foBadQa.ats (.atsScore jOk (normInp inpPlain).jd_text) 750).1)
      ∧ r.qa = (runTask ⟨true⟩ foBadQa.qa (.interviewQa jOk
          (orGeneral (normInp inpPlain).target_role)
          (orGeneral (normInp inpPlain).industry)) 850).1
      ∧ r.advice = (runTask ⟨true⟩ foBadQa.adv
          (.careerAdvice jOk (normInp inpPlain).location) 800).1 :=
  claim_C2_amended ⟨true⟩ foBadQa inpPlain [] jOk
    [⟨.parseResume "resume text".data, some 600, true, 40⟩] rfl rfl

/-! Claim C8: a well-formed JSON object wrapped in code-fence markup is
extracted locally by `load_json_strict`, so `call_json` never reaches the
repair pass.  The object is an arbitrary value of the embedded `Json`
type (its strings restricted to the characters `json.dumps` emits without
`\uXXXX` notation, which the embedding does not model); its canonical
serialization stands for the well-formed text.  The proof follows the
pipeline: the fence substitution removes exactly the two fences, the
brace-span extraction is the identity on a serialized object, the
trailing-comma substitution can only rewrite characters inside string
literals (producing the serialization of a comma-stripped value), the
control-character substitution is the identity, and the parser inverts
the serializer. -/

/-- Characters representable in a string by this embedding's serializer:
everything except the control characters that `json.dumps` would emit in
`\uXXXX` notation. -/
def niceChar (c : Char) : Bool :=
  32 ≤ c.toNat || c.toNat = 10 || c.toNat = 9 || c.toNat = 13 || c.toNat = 8 || c.toNat = 12

/-- All characters of a string are representable. -/
def niceStr (s : List Char) : Bool := s.all niceChar

mutual

/-- All strings of the value are representable. -/
def niceJ : Json → Bool
  | .null => true
  | .boolean _ => true
  | .num _ => true
  | .str s => niceStr s
  | .arr xs => niceA xs
  | .obj ms => niceO ms

/-- All strings of the elements are representable. -/
def niceA : JArr → Bool
  | .nil => true
  | .cons v tl => niceJ v && niceA tl

/-- All keys and strings of the members are representable. -/
def niceO : JObj → Bool
  | .nil => true
  | .cons k v tl => niceStr k && niceJ v && niceO tl

end

/-- The space-only whitespace class: inside a serialized string literal
the only raw whitespace character is the space (tab, newline, carriage
return, form feed are escaped and vertical tab is not representable), so
the comma scanner acting on a literal's escaped content behaves like the
scanner with this class acting on the raw content. -/
def spaceOnly (c : Char) : Bool := c = ' '

mutual

/-- The value whose serialization is the comma-substituted serialization
of the input: every string (and key) has the comma scanner applied to its
raw content with the space-only whitespace class. -/
def csMapJ : Json → Json
  | .null => .null
  | .boolean b => .boolean b
  | .num n => .num n
  | .str s => .str (csRun spaceOnly s)
  | .arr xs => .arr (csMapA xs)
  | .obj ms => .obj (csMapO ms)

/-- Element-wise comma-map. -/
def csMapA : JArr → JArr
  | .nil => .nil
  | .cons v tl => .cons (csMapJ v) (csMapA tl)

/-- Member-wise comma-map. -/
def csMapO : JObj → JObj
  | .nil => .nil
  | .cons k v tl => .cons (csRun spaceOnly k) (csMapJ v) (csMapO tl)

end

mutual

/-- Fuel needed by `parseVal` on the serialization of a value. -/
def sizeJ : Json → Nat
  | .null => 1
  | .boolean _ => 1
  | .num _ => 1
  | .str _ => 1
  | .arr xs => 2 + sizeA xs
  | .obj ms => 2 + sizeO ms

/-- Fuel needed by `parseElem` on serialized elements. -/
def sizeA : JArr → Nat
  | .nil => 0
  | .cons v tl => 1 + max (sizeJ v) (sizeA tl)

/-- Fuel needed by `parseMember` on serialized members. -/
def sizeO : JObj → Nat
  | .nil => 0
  | .cons _ v tl => 1 + max (sizeJ v) (sizeO tl)

end

/-- Code-fence wrapping of a text, with or without the `json` language
tag, as described by the claim. -/
def fenceWrap (withJson : Bool) (body : List Char) : List Char :=
  [btick, btick, btick] ++ (if withJson then ['j', 's', 'o', 'n'] else [])
    ++ nlChar :: body ++ nlChar :: [btick, btick, btick]

/-! Scanner lemmas. -/

/-- The comma scanner's fold is compositional over concatenation. -/
theorem csFold_append (wsP : Char → Bool) (st : Option (List Char))
    (xs ys : List Char) :
    csFold wsP st (xs ++ ys)
      = ((csFold wsP st xs).1 ++ (csFold wsP (csFold wsP st xs).2 ys).1,
         (csFold wsP (csFold wsP st xs).2 ys).2) := by
  induction xs generalizing st with
  | nil => simp [csFold]
  | cons c r ih => simp [csFold, ih]

/-- A character that is neither a comma, nor whitespace, nor a closing
delimiter: processing it flushes any pending state and emits it. -/
def flushy (wsP : Char → Bool) (c : Char) : Bool :=
  !(c = ',') && !(wsP c) && !(c = rbrace) && !(c = ']')

/-- Step of the scanner on a flushy character. -/
theorem csStep_flushy (wsP : Char → Bool) (st : Option (List Char)) (c : Char)
    (h : flushy wsP c = true) :
    csStep wsP st c = (csFinish st ++ [c], none) := by
  simp only [flushy, Bool.and_eq_true, Bool.not_eq_true', decide_eq_false_iff_not] at h
  obtain ⟨⟨⟨h1, h2⟩, h3⟩, h4⟩ := h
  cases st with
  | none => simp [csStep, csFinish, h1]
  | some ws => simp [csStep, csFinish, h1, h2, h3, h4]

/-- On input with a flushy head, a pending state only contributes its own
flush in front of the none-state run. -/
theorem csFold_flushy_head (wsP : Char → Bool) (st : Option (List Char))
    (c : Char) (r : List Char) (h : flushy wsP c = true) :
    csFold wsP st (c :: r)
      = (csFinish st ++ (csFold wsP none (c :: r)).1,
         (csFold wsP none (c :: r)).2) := by
  simp [csFold, csStep_flushy wsP st c h, csStep_flushy wsP none c h, csFinish]

/-- A list of plain characters (flushy for the given class) passes the
scanner unchanged from the clean state. -/
theorem csFold_plain (wsP : Char → Bool) (l : List Char)
    (h : ∀ c ∈ l, flushy wsP c = true) :
    csFold wsP none l = (l, none) := by
  induction l with
  | nil => rfl
  | cons c r ih =>
    have hc := h c (List.mem_cons_self c r)
    have hr := ih (fun d hd => h d (List.mem_cons_of_mem c hd))
    simp [csFold, csStep_flushy wsP none c hc, hr, csFinish]

/-- The scanner's fold on a single character is its step. -/
theorem csFold_single (wsP : Char → Bool) (st : Option (List Char)) (c : Char) :
    csFold wsP st [c] = csStep wsP st c := by
  simp [csFold]

/-- Pending-state invariant of the scanners at hand: any buffered
whitespace consists of spaces. -/
def pendSp (st : Option (List Char)) : Prop :=
  ∀ ws, st = some ws → ∀ c ∈ ws, c = ' '

/-- Escaping is the identity on commas and spaces. -/
theorem escape_comma_space (l : List Char) (h : ∀ c ∈ l, c = ',' ∨ c = ' ') :
    escape l = l := by
  induction l with
  | nil => rfl
  | cons c r ih =>
    have hc := h c (List.mem_cons_self c r)
    have hr := ih (fun d hd => h d (List.mem_cons_of_mem c hd))
    have hcc : escChar c = [c] := by
      rcases hc with hc | hc <;> subst hc <;> rfl
    rw [show escape (c :: r) = escChar c ++ escape r from rfl, hcc, hr]
    rfl

/-- Escaping is the identity on a flushed pending state. -/
theorem escape_csFinish (st : Option (List Char)) (hst : pendSp st) :
    escape (csFinish st) = csFinish st := by
  cases st with
  | none => rfl
  | some ws =>
    refine escape_comma_space _ ?_
    intro c hc
    rcases List.mem_cons.mp hc with hc | hc
    · exact .inl hc
    · exact .inr (hst ws rfl c (List.mem_reverse.mp hc))

/-- Step correspondence for an escaped character: the python-whitespace
scanner on its two-character escape behaves as the space-only scanner on
the raw character, modulo escaping of the emission. -/
theorem csStep_escaped (st : Option (List Char)) (c x : Char) (hst : pendSp st)
    (hesc : escChar c = [bslash, x])
    (hcf : flushy spaceOnly c = true) (hxf : flushy isPyWs x = true) :
    csFold isPyWs st (escChar c)
      = (escape (csStep spaceOnly st c).1, (csStep spaceOnly st c).2)
    ∧ pendSp (csStep spaceOnly st c).2 := by
  have hbf : flushy isPyWs bslash = true := by decide
  rw [hesc]
  rw [csStep_flushy spaceOnly st c hcf]
  constructor
  · have h1 : csFold isPyWs st [bslash, x]
        = ((csFinish st ++ [bslash]) ++ [x], none) := by
      simp [csFold, csStep_flushy isPyWs st bslash hbf,
        csStep_flushy isPyWs none x hxf, csFinish]
    rw [h1]
    have h2 : escape (csFinish st ++ [c]) = csFinish st ++ [bslash, x] := by
      have : escape (csFinish st ++ [c]) = escape (csFinish st) ++ escChar c := by
        simp [escape]
      rw [this, escape_csFinish st hst, hesc]
    rw [h2]
    simp
  · intro ws hws
    simp at hws

/-- Step correspondence for an unescaped representable character: both
scanners take the same branch and the emission is escape-invariant. -/
theorem csStep_unescaped (st : Option (List Char)) (c : Char) (hst : pendSp st)
    (hesc : escChar c = [c]) (hws : isPyWs c = spaceOnly c) :
    csFold isPyWs st (escChar c)
      = (escape (csStep spaceOnly st c).1, (csStep spaceOnly st c).2)
    ∧ pendSp (csStep spaceOnly st c).2 := by
  rw [hesc, csFold_single]
  have hstep : csStep isPyWs st c = csStep spaceOnly st c := by
    unfold csStep
    rw [hws]
  rw [hstep]
  have hone : escape [c] = [c] := by simp [escape, hesc]
  cases st with
  | none =>
    by_cases hc : c = ','
    · subst hc
      refine ⟨by simp [csStep, escape], ?_⟩
      intro ws hws2
      simp [csStep] at hws2
      subst hws2
      simp
    · refine ⟨by simp [csStep, hc, hone], ?_⟩
      intro ws hws2
      simp [csStep, hc] at hws2
  | some ws =>
    have hwsall : ∀ d ∈ ws, d = ' ' := hst ws rfl
    have hflush : escape (',' :: ws.reverse) = ',' :: ws.reverse := by
      refine escape_comma_space _ ?_
      intro d hd
      rcases List.mem_cons.mp hd with hd | hd
      · exact .inl hd
      · exact .inr (hwsall d (List.mem_reverse.mp hd))
    by_cases hb1 : c = rbrace
    · subst hb1
      refine ⟨by simp [csStep, hone], ?_⟩
      intro ws2 hws2
      simp [csStep] at hws2
    · by_cases hb2 : c = ']'
      · subst hb2
        refine ⟨by simp [csStep, hone], ?_⟩
        intro ws2 hws2
        simp [csStep] at hws2
      · by_cases hsp : spaceOnly c = true
        · have hcsp : c = ' ' := of_decide_eq_true hsp
          refine ⟨by simp [csStep, hb1, hb2, hsp, escape], ?_⟩
          intro ws2 hws2
          simp [csStep, hb1, hb2, hsp] at hws2
          intro d hd
          rw [← hws2] at hd
          rcases List.mem_cons.mp hd with hd | hd
          · rw [hd, hcsp]
          · exact hwsall d hd
        · by_cases hc : c = ','
          · subst hc
            refine ⟨by simp [csStep, hb1, hb2, hsp, hflush], ?_⟩
            intro ws2 hws2
            simp [csStep, hb1, hb2, hsp] at hws2
            subst hws2
            simp
          · have hall : escape (',' :: (ws.reverse ++ [c]))
                = ',' :: (ws.reverse ++ [c]) := by
              have h2 : escape (',' :: ws.reverse) ++ escape [c]
                  = (',' :: ws.reverse) ++ [c] := by rw [hflush, hone]
              have h3 : escape ((',' :: ws.reverse) ++ [c])
                  = escape (',' :: ws.reverse) ++ escape [c] := by
                simp [escape]
              simpa using h3.trans h2
            refine ⟨by simp [csStep, hb1, hb2, hsp, hc, hall], ?_⟩
            intro ws2 hws2
            simp [csStep, hb1, hb2, hsp, hc] at hws2

/-- Characters are determined by their code points. -/
theorem charToNatInj (c d : Char) (h : c.toNat = d.toNat) : c = d :=
  Char.eq_of_val_eq (UInt32.ext h)

/-- Step correspondence for any representable character. -/
theorem csStep_escape (st : Option (List Char)) (c : Char)
    (hc : niceChar c = true) (hst : pendSp st) :
    csFold isPyWs st (escChar c)
      = (escape (csStep spaceOnly st c).1, (csStep spaceOnly st c).2)
    ∧ pendSp (csStep spaceOnly st c).2 := by
  by_cases h1 : c = dquote
  · subst h1
    exact csStep_escaped st dquote dquote hst rfl (by decide) (by decide)
  by_cases h2 : c = bslash
  · subst h2
    exact csStep_escaped st bslash bslash hst rfl (by decide) (by decide)
  by_cases h3 : c.toNat = 10
  · have hcc : c = Char.ofNat 10 := charToNatInj c (Char.ofNat 10) (by rw [h3]; rfl)
    subst hcc
    exact csStep_escaped st (Char.ofNat 10) 'n' hst rfl (by decide) (by decide)
  by_cases h4 : c.toNat = 9
  · have hcc : c = Char.ofNat 9 := charToNatInj c (Char.ofNat 9) (by rw [h4]; rfl)
    subst hcc
    exact csStep_escaped st (Char.ofNat 9) 't' hst rfl (by decide) (by decide)
  by_cases h5 : c.toNat = 13
  · have hcc : c = Char.ofNat 13 := charToNatInj c (Char.ofNat 13) (by rw [h5]; rfl)
    subst hcc
    exact csStep_escaped st (Char.ofNat 13) 'r' hst rfl (by decide) (by decide)
  by_cases h6 : c.toNat = 8
  · have hcc : c = Char.ofNat 8 := charToNatInj c (Char.ofNat 8) (by rw [h6]; rfl)
    subst hcc
    exact csStep_escaped st (Char.ofNat 8) 'b' hst rfl (by decide) (by decide)
  by_cases h7 : c.toNat = 12
  · have hcc : c = Char.ofNat 12 := charToNatInj c (Char.ofNat 12) (by rw [h7]; rfl)
    subst hcc
    exact csStep_escaped st (Char.ofNat 12) 'f' hst rfl (by decide) (by decide)
  have hesc : escChar c = [c] := by
    simp only [escChar, if_neg h1, if_neg h2, if_neg h3, if_neg h4, if_neg h5,
      if_neg h6, if_neg h7]
  have h32 : 32 ≤ c.toNat := by
    simp only [niceChar, Bool.or_eq_true, decide_eq_true_eq] at hc
    rcases hc with ((((h | h) | h) | h) | h) | h <;> omega
  have h11 : ¬ c.toNat = 11 := by omega
  have hws : isPyWs c = spaceOnly c := by
    simp [isPyWs, spaceOnly, h3, h4, h5, h7, h11]
  exact csStep_unescaped st c hst hesc hws

/-- Fold correspondence: the python-whitespace scanner on escaped content
behaves as the space-only scanner on the raw content, modulo escaping. -/
theorem csFold_escape (s : List Char) (st : Option (List Char))
    (hs : niceStr s = true) (hst : pendSp st) :
    csFold isPyWs st (escape s)
      = (escape (csFold spaceOnly st s).1, (csFold spaceOnly st s).2)
    ∧ pendSp (csFold spaceOnly st s).2 := by
  induction s generalizing st with
  | nil => exact ⟨by simp [csFold, escape], hst⟩
  | cons c r ih =>
    have hcn : niceChar c = true := by
      simp only [niceStr, List.all_cons, Bool.and_eq_true] at hs
      exact hs.1
    have hrn : niceStr r = true := by
      simp only [niceStr, List.all_cons, Bool.and_eq_true] at hs
      exact hs.2
    obtain ⟨hstep, hpend⟩ := csStep_escape st c hcn hst
    obtain ⟨hrest, hpend2⟩ := ih ((csStep spaceOnly st c).2) hrn hpend
    constructor
    · have hdist : escape (c :: r) = escChar c ++ escape r := rfl
      rw [hdist, csFold_append, hstep]
      simp only []
      rw [hrest]
      have hsplit : csFold spaceOnly st (c :: r)
          = ((csStep spaceOnly st c).1
              ++ (csFold spaceOnly (csStep spaceOnly st c).2 r).1,
             (csFold spaceOnly (csStep spaceOnly st c).2 r).2) := by
        simp [csFold]
      rw [hsplit]
      simp [escape]
    · have hsplit2 : (csFold spaceOnly st (c :: r)).2
          = (csFold spaceOnly (csStep spaceOnly st c).2 r).2 := by
        simp [csFold]
      rw [hsplit2]
      exact hpend2

/-! Stepping helpers for walking the scanner over serialized pieces. -/

/-- A flushy head flushes any pending state and emits itself. -/
theorem csFold_cons_flushy (wsP : Char → Bool) (st : Option (List Char))
    (c : Char) (r : List Char) (h : flushy wsP c = true) :
    csFold wsP st (c :: r)
      = (csFinish st ++ c :: (csFold wsP none r).1, (csFold wsP none r).2) := by
  simp [csFold, csStep_flushy wsP st c h]

/-- In the clean state a non-comma character is emitted unchanged. -/
theorem csFold_cons_noncomma (wsP : Char → Bool) (c : Char) (r : List Char)
    (h : ¬ c = ',') :
    csFold wsP none (c :: r)
      = (c :: (csFold wsP none r).1, (csFold wsP none r).2) := by
  simp [csFold, csStep, h]

/-- A comma opens a pending state. -/
theorem csFold_comma (wsP : Char → Bool) (r : List Char) :
    csFold wsP none (',' :: r)
      = ((csFold wsP (some []) r).1, (csFold wsP (some []) r).2) := by
  simp [csFold, csStep]

/-- A whitespace character extends a pending state. -/
theorem csFold_ws_pend (wsP : Char → Bool) (c : Char) (r ws : List Char)
    (h1 : wsP c = true) (h2 : ¬ c = rbrace) (h3 : ¬ c = ']') :
    csFold wsP (some ws) (c :: r)
      = ((csFold wsP (some (c :: ws)) r).1, (csFold wsP (some (c :: ws)) r).2) := by
  simp [csFold, csStep, h1, h2, h3]

/-! Digit-character facts. -/

/-- Code point of a digit character. -/
theorem digit_char_toNat (k : Nat) (h : k < 10) :
    (Char.ofNat (48 + k)).toNat = 48 + k := by
  have hv : (48 + k).isValidChar := by left; omega
  simp [Char.ofNat, hv, Char.toNat, Char.ofNatAux, UInt32.toNat, BitVec.toNat_ofNat]

/-- Flushiness from code-point constraints. -/
theorem flushy_of_code (c : Char) (n44 : ¬ c.toNat = 44) (n125 : ¬ c.toNat = 125)
    (n93 : ¬ c.toNat = 93) (n32 : ¬ c.toNat = 32) (n9 : ¬ c.toNat = 9)
    (n10 : ¬ c.toNat = 10) (n13 : ¬ c.toNat = 13) (n12 : ¬ c.toNat = 12)
    (n11 : ¬ c.toNat = 11) : flushy isPyWs c = true := by
  have hc : ¬ c = ',' := fun hh => n44 (by rw [hh]; rfl)
  have hrb : ¬ c = rbrace := fun hh => n125 (by rw [hh]; rfl)
  have hsb : ¬ c = ']' := fun hh => n93 (by rw [hh]; rfl)
  have hsp : ¬ c = ' ' := fun hh => n32 (by rw [hh]; rfl)
  simp [flushy, isPyWs, hc, hrb, hsb, hsp, n9, n10, n13, n12, n11]

/-- Every character produced by `natDigitsAux` is a digit character. -/
theorem natDigitsAux_chars (fuel : Nat) :
    ∀ n c, c ∈ natDigitsAux fuel n → ∃ k, k < 10 ∧ c = Char.ofNat (48 + k) := by
  induction fuel with
  | zero => intro n c hc; simp [natDigitsAux] at hc
  | succ fuel ih =>
    intro n c hc
    by_cases h : n < 10
    · simp [natDigitsAux, h] at hc
      exact ⟨n, h, hc⟩
    · simp only [natDigitsAux, if_neg h, List.mem_append] at hc
      rcases hc with hc | hc
      · exact ih (n / 10) c hc
      · simp at hc
        exact ⟨n % 10, Nat.mod_lt _ (by omega), hc⟩

/-- Positive fuel never yields an empty digit list. -/
theorem natDigitsAux_ne_nil (fuel n : Nat) : natDigitsAux (fuel + 1) n ≠ [] := by
  by_cases h : n < 10 <;> simp [natDigitsAux, h]

/-- Every character of a rendered integer is a minus sign or a digit. -/
theorem intRepr_chars (n : Int) :
    ∀ c ∈ intRepr n, c = '-' ∨ ∃ k, k < 10 ∧ c = Char.ofNat (48 + k) := by
  intro c hc
  simp only [intRepr, natDigits] at hc
  split at hc
  · rcases List.mem_cons.mp hc with hc | hc
    · exact .inl hc
    · exact .inr (natDigitsAux_chars _ _ c hc)
  · exact .inr (natDigitsAux_chars _ _ c hc)

/-- Digits and the minus sign are flushy. -/
theorem intRepr_flushy (n : Int) : ∀ c ∈ intRepr n, flushy isPyWs c = true := by
  intro c hc
  rcases intRepr_chars n c hc with hc | ⟨k, hk, hc⟩
  · subst hc; decide
  · subst hc
    have ht := digit_char_toNat k hk
    exact flushy_of_code _ (by omega) (by omega) (by omega) (by omega) (by omega)
      (by omega) (by omega) (by omega) (by omega)

/-- The serialization of any value begins with a flushy character. -/
theorem dumps_head_flushy (v : Json) :
    ∃ c r, dumps v = c :: r ∧ flushy isPyWs c = true := by
  cases v with
  | null => exact ⟨'n', _, rfl, by decide⟩
  | boolean b =>
    cases b with
    | true => exact ⟨'t', _, rfl, by decide⟩
    | false => exact ⟨'f', _, rfl, by decide⟩
  | num n =>
    have hne : intRepr n ≠ [] := by
      simp only [intRepr, natDigits]
      split
      · simp
      · exact natDigitsAux_ne_nil _ _
    obtain ⟨c, r, hcr⟩ := List.exists_cons_of_ne_nil hne
    refine ⟨c, r, by rw [dumps, hcr], ?_⟩
    exact intRepr_flushy n c (by rw [hcr]; exact List.mem_cons_self c r)
  | str s => exact ⟨dquote, _, rfl, by decide⟩
  | arr xs => exact ⟨'[', _, rfl, by decide⟩
  | obj ms => exact ⟨lbrace, _, rfl, by decide⟩

/-- Elements of a nonempty array: the serialization starts with the first
element's serialization. -/
theorem dumpsArr_cons_decomp (w : Json) (tl : JArr) :
    ∃ rest, dumpsArr (.cons w tl) = dumps w ++ rest := by
  cases tl with
  | nil => exact ⟨[], by simp [dumpsArr]⟩
  | cons y tl2 => exact ⟨_, rfl⟩

/-- The empty pending-state invariant. -/
theorem pendSp_none : pendSp none := fun _ h => by cases h

/-- Walking the scanner over a serialized string literal with a trailing
continuation: the literal maps to the comma-stripped literal and the
state returns to clean. -/
theorem csFold_strLit (s rest : List Char) (hs : niceStr s = true) :
    csFold isPyWs none (dquote :: (escape s ++ dquote :: rest))
      = (dquote :: (escape (csRun spaceOnly s) ++ dquote :: (csFold isPyWs none rest).1),
         (csFold isPyWs none rest).2) := by
  rw [csFold_cons_noncomma isPyWs dquote _ (by decide), csFold_append]
  obtain ⟨hesc, hpend⟩ := csFold_escape s none hs pendSp_none
  rw [hesc, csFold_cons_flushy isPyWs _ dquote rest (by decide)]
  have h1 : escape (csRun spaceOnly s)
      = escape (csFold spaceOnly none s).1 ++ csFinish (csFold spaceOnly none s).2 := by
    simp only [csRun]
    rw [show escape ((csFold spaceOnly none s).1 ++ csFinish (csFold spaceOnly none s).2)
          = escape (csFold spaceOnly none s).1
            ++ escape (csFinish (csFold spaceOnly none s).2) from by simp [escape]]
    rw [escape_csFinish _ hpend]
  rw [h1]
  simp

mutual

/-- The trailing-comma substitution maps the serialization of a value to
the serialization of the comma-mapped value, ending in the clean state. -/
theorem cs_dumps_val (v : Json) (hv : niceJ v = true) :
    csFold isPyWs none (dumps v) = (dumps (csMapJ v), none) := by
  cases v with
  | null => rfl
  | boolean b => cases b <;> rfl
  | num n =>
    simp only [dumps, csMapJ]
    exact csFold_plain _ _ (intRepr_flushy n)
  | str s =>
    simp only [niceJ] at hv
    simp only [dumps, csMapJ]
    have := csFold_strLit s [] hv
    simpa [csFold] using this
  | arr xs =>
    simp only [niceJ] at hv
    simp only [dumps, csMapJ]
    rw [show ('[' :: dumpsArr xs ++ [']'])
          = '[' :: (dumpsArr xs ++ [']']) from by simp,
        csFold_cons_noncomma isPyWs '[' _ (by decide), csFold_append,
        cs_dumps_arr xs hv]
    simp [csFold, csStep]
  | obj ms =>
    simp only [niceJ] at hv
    simp only [dumps, csMapJ]
    rw [show (lbrace :: dumpsObj ms ++ [rbrace])
          = lbrace :: (dumpsObj ms ++ [rbrace]) from by simp,
        csFold_cons_noncomma isPyWs lbrace _ (by decide), csFold_append,
        cs_dumps_obj ms hv]
    simp [csFold, csStep, show ¬ rbrace = ',' from by decide]

/-- Array-elements version of `cs_dumps_val`. -/
theorem cs_dumps_arr (xs : JArr) (hx : niceA xs = true) :
    csFold isPyWs none (dumpsArr xs) = (dumpsArr (csMapA xs), none) := by
  cases xs with
  | nil => rfl
  | cons v tl =>
    simp only [niceA, Bool.and_eq_true] at hx
    cases tl with
    | nil =>
      simp only [dumpsArr, csMapA]
      exact cs_dumps_val v hx.1
    | cons w tl2 =>
      simp only [dumpsArr, csMapA]
      rw [show (dumps v ++ ',' :: ' ' :: dumpsArr (.cons w tl2))
            = dumps v ++ (',' :: ' ' :: dumpsArr (.cons w tl2)) from rfl,
          csFold_append, cs_dumps_val v hx.1]
      rw [csFold_comma, csFold_ws_pend isPyWs ' ' _ [] (by decide) (by decide) (by decide)]
      obtain ⟨c, r2, hcr, hcf⟩ := dumps_head_flushy w
      obtain ⟨rest, hrest⟩ := dumpsArr_cons_decomp w tl2
      have hshape : dumpsArr (.cons w tl2) = c :: (r2 ++ rest) := by
        rw [hrest, hcr]; simp
      rw [hshape, csFold_flushy_head isPyWs (some [' ']) c _ hcf, ← hshape,
          cs_dumps_arr (.cons w tl2) hx.2]
      simp [csFinish, csMapA]

/-- Object-members version of `cs_dumps_val`. -/
theorem cs_dumps_obj (ms : JObj) (hm : niceO ms = true) :
    csFold isPyWs none (dumpsObj ms) = (dumpsObj (csMapO ms), none) := by
  cases ms with
  | nil => rfl
  | cons k v tl =>
    simp only [niceO, Bool.and_eq_true] at hm
    cases tl with
    | nil =>
      simp only [dumpsObj, csMapO]
      rw [show (dquote :: escape k ++ dquote :: ':' :: ' ' :: dumps v)
            = dquote :: (escape k ++ dquote :: (':' :: ' ' :: dumps v)) from by simp,
          csFold_strLit k (':' :: ' ' :: dumps v) hm.1.1]
      rw [csFold_cons_noncomma isPyWs ':' _ (by decide),
          csFold_cons_noncomma isPyWs ' ' _ (by decide),
          cs_dumps_val v hm.1.2]
      simp
    | cons k2 w tl2 =>
      simp only [dumpsObj, csMapO]
      rw [show (dquote :: escape k ++ dquote :: ':' :: ' ' :: dumps v
              ++ ',' :: ' ' :: dumpsObj (.cons k2 w tl2))
            = dquote :: (escape k ++ dquote :: (':' :: ' ' :: (dumps v
              ++ ',' :: ' ' :: dumpsObj (.cons k2 w tl2)))) from by simp,
          csFold_strLit k _ hm.1.1]
      rw [csFold_cons_noncomma isPyWs ':' _ (by decide),
          csFold_cons_noncomma isPyWs ' ' _ (by decide),
          csFold_append, cs_dumps_val v hm.1.2]
      rw [csFold_comma, csFold_ws_pend isPyWs ' ' _ [] (by decide) (by decide) (by decide)]
      obtain ⟨rest2, hr2⟩ :
          ∃ rest2, dumpsObj (.cons k2 w tl2) = dquote :: rest2 := by
        cases tl2 with
        | nil => exact ⟨escape k2 ++ dquote :: ':' :: ' ' :: dumps w, rfl⟩
        | cons k3 v3 tl3 =>
          exact ⟨escape k2 ++ dquote :: ':' :: ' '
            :: (dumps w ++ ',' :: ' ' :: dumpsObj (.cons k3 v3 tl3)),
            by simp [dumpsObj]⟩
      rw [hr2, csFold_flushy_head isPyWs (some [' ']) dquote _ (by decide), ← hr2,
          cs_dumps_obj (.cons k2 w tl2) hm.2]
      simp [csFinish, csMapO]

end

/-- The trailing-comma substitution on a serialized value. -/
theorem commaSub_dumps (v : Json) (hv : niceJ v = true) :
    commaSub (dumps v) = dumps (csMapJ v) := by
  simp [commaSub, csRun, cs_dumps_val v hv, csFinish]

/-- The comma scanner only emits characters of its input, its pending
state, or commas. -/
theorem csFold_chars (wsP : Char → Bool) (P : Char → Bool) (l : List Char)
    (st : Option (List Char)) (hcm : P ',' = true)
    (hl : ∀ c ∈ l, P c = true)
    (hst : ∀ ws, st = some ws → ∀ c ∈ ws, P c = true) :
    (∀ c ∈ (csFold wsP st l).1, P c = true)
    ∧ (∀ ws, (csFold wsP st l).2 = some ws → ∀ c ∈ ws, P c = true) := by
  induction l generalizing st with
  | nil =>
    refine ⟨?_, ?_⟩
    · intro c hc; simp [csFold] at hc
    · intro ws hws; simp [csFold] at hws; exact hst ws (by rw [hws])
  | cons c r ih =>
    have hc := hl c (List.mem_cons_self c r)
    have hr : ∀ d ∈ r, P d = true := fun d hd => hl d (List.mem_cons_of_mem c hd)
    have hstep : (∀ d ∈ (csStep wsP st c).1, P d = true)
        ∧ (∀ ws, (csStep wsP st c).2 = some ws → ∀ d ∈ ws, P d = true) := by
      cases st with
      | none =>
        by_cases h : c = ','
        · subst h; constructor
          · intro d hd; simp [csStep] at hd
          · intro ws hws; simp [csStep] at hws; simp_all
        · constructor
          · intro d hd
            simp [csStep, h] at hd
            rw [hd]; exact hc
          · intro ws hws; simp [csStep, h] at hws
      | some ws =>
        have hwsP := hst ws rfl
        by_cases hb : (c = rbrace || c = ']') = true
        · constructor
          · intro d hd
            simp only [csStep, if_pos hb] at hd
            simp at hd
            rw [hd]; exact hc
          · intro ws2 hws2; simp only [csStep, if_pos hb] at hws2; simp at hws2
        · by_cases hw : wsP c = true
          · constructor
            · intro d hd; simp only [csStep, if_neg hb, if_pos hw] at hd; simp at hd
            · intro ws2 hws2
              simp only [csStep, if_neg hb, if_pos hw] at hws2
              simp at hws2
              intro d hd
              rw [← hws2] at hd
              rcases List.mem_cons.mp hd with hd | hd
              · rw [hd]; exact hc
              · exact hwsP d hd
          · by_cases hcm2 : c = ','
            · subst hcm2
              constructor
              · intro d hd
                simp only [csStep, if_neg hb, if_neg hw, if_pos rfl] at hd
                rcases List.mem_cons.mp hd with hd | hd
                · rw [hd]; exact hcm
                · exact hwsP d (List.mem_reverse.mp hd)
              · intro ws2 hws2
                simp only [csStep, if_neg hb, if_neg hw, if_pos rfl] at hws2
                simp at hws2
                simp_all
            · constructor
              · intro d hd
                simp only [csStep, if_neg hb, if_neg hw, if_neg hcm2] at hd
                simp at hd
                rcases hd with hd | hd | hd
                · rw [hd]; exact hcm
                · exact hwsP d hd
                · rw [hd]; exact hc
              · intro ws2 hws2
                simp only [csStep, if_neg hb, if_neg hw, if_neg hcm2] at hws2
                simp at hws2
    obtain ⟨hrest, hpend⟩ := ih (csStep wsP st c).2 hr hstep.2
    constructor
    · intro d hd
      have hsplit : (csFold wsP st (c :: r)).1
          = (csStep wsP st c).1 ++ (csFold wsP (csStep wsP st c).2 r).1 := by
        simp [csFold]
      rw [hsplit] at hd
      rcases List.mem_append.mp hd with hd | hd
      · exact hstep.1 d hd
      · exact hrest d hd
    · intro ws hws
      have hsplit2 : (csFold wsP st (c :: r)).2
          = (csFold wsP (csStep wsP st c).2 r).2 := by
        simp [csFold]
      rw [hsplit2] at hws
      exact hpend ws hws

/-- The comma scanner preserves representability of strings. -/
theorem csRun_nice (s : List Char) (hs : niceStr s = true) :
    niceStr (csRun spaceOnly s) = true := by
  have hs' : ∀ c ∈ s, niceChar c = true := by
    simpa [niceStr, List.all_eq_true] using hs
  obtain ⟨h1, h2⟩ := csFold_chars spaceOnly niceChar s none (by decide) hs'
    (fun ws h => by cases h)
  simp only [niceStr, List.all_eq_true, csRun]
  intro c hc
  rcases List.mem_append.mp hc with hc | hc
  · exact h1 c hc
  · rcases hfin : (csFold spaceOnly none s).2 with _ | ws
    · rw [hfin] at hc; simp [csFinish] at hc
    · rw [hfin] at hc
      simp only [csFinish] at hc
      rcases List.mem_cons.mp hc with hc | hc
      · rw [hc]; decide
      · exact h2 ws hfin c (List.mem_reverse.mp hc)

mutual

/-- The comma-map preserves representability. -/
theorem niceJ_csMap (v : Json) (hv : niceJ v = true) : niceJ (csMapJ v) = true := by
  cases v with
  | null => rfl
  | boolean b => rfl
  | num n => rfl
  | str s => exact csRun_nice s (by simpa [niceJ] using hv)
  | arr xs =>
    simp only [niceJ] at hv ⊢
    exact niceA_csMap xs hv
  | obj ms =>
    simp only [niceJ] at hv ⊢
    exact niceO_csMap ms hv

/-- Element version. -/
theorem niceA_csMap (xs : JArr) (hx : niceA xs = true) : niceA (csMapA xs) = true := by
  cases xs with
  | nil => rfl
  | cons v tl =>
    simp only [niceA, Bool.and_eq_true] at hx ⊢
    exact ⟨niceJ_csMap v hx.1, niceA_csMap tl hx.2⟩

/-- Member version. -/
theorem niceO_csMap (ms : JObj) (hm : niceO ms = true) : niceO (csMapO ms) = true := by
  cases ms with
  | nil => rfl
  | cons k v tl =>
    simp only [niceO, Bool.and_eq_true] at hm ⊢
    exact ⟨⟨csRun_nice k hm.1.1, niceJ_csMap v hm.1.2⟩, niceO_csMap tl hm.2⟩

end

/-- Characters emitted by the character escaper have code points of at
least 32. -/
theorem escChar_ge32 (c : Char) (hc : niceChar c = true) :
    ∀ d ∈ escChar c, 32 ≤ d.toNat := by
  intro d hd
  simp only [escChar] at hd
  split_ifs at hd with h1 h2 h3 h4 h5 h6 h7
  · fin_cases hd <;> decide
  · fin_cases hd <;> decide
  · fin_cases hd <;> decide
  · fin_cases hd <;> decide
  · fin_cases hd <;> decide
  · fin_cases hd <;> decide
  · fin_cases hd <;> decide
  · fin_cases hd
    simp only [niceChar, Bool.or_eq_true, decide_eq_true_eq] at hc
    rcases hc with ((((h | h) | h) | h) | h) | h <;> omega

/-- All characters of an escaped representable string have code points of
at least 32. -/
theorem escape_ge32 (s : List Char) (hs : niceStr s = true) :
    ∀ d ∈ escape s, 32 ≤ d.toNat := by
  have hs' : ∀ c ∈ s, niceChar c = true := by
    simpa [niceStr, List.all_eq_true] using hs
  intro d hd
  simp only [escape, List.mem_flatMap] at hd
  obtain ⟨c, hc, hd⟩ := hd
  exact escChar_ge32 c (hs' c hc) d hd

/-- All characters of a rendered integer have code points of at least 32. -/
theorem intRepr_ge32 (n : Int) : ∀ c ∈ intRepr n, 32 ≤ c.toNat := by
  intro c hc
  rcases intRepr_chars n c hc with hc | ⟨k, hk, hc⟩
  · rw [hc]; decide
  · rw [hc, digit_char_toNat k hk]; omega

mutual

/-- All characters of a serialized representable value have code points of
at least 32: the serializer escapes every control character. -/
theorem dumps_ge32_val (v : Json) (hv : niceJ v = true) :
    ∀ c ∈ dumps v, 32 ≤ c.toNat := by
  cases v with
  | null => intro c hc; fin_cases hc <;> decide
  | boolean b => cases b <;> (intro c hc; fin_cases hc <;> decide)
  | num n =>
    intro c hc
    exact intRepr_ge32 n c (by simpa [dumps] using hc)
  | str s =>
    intro c hc
    simp only [dumps, List.mem_cons, List.mem_append, List.mem_singleton] at hc
    rcases hc with (hc | hc) | hc
    · rw [hc]; decide
    · exact escape_ge32 s (by simpa [niceJ] using hv) c hc
    · rcases hc with hc | hc
      · rw [hc]; decide
      · simp at hc
  | arr xs =>
    intro c hc
    simp only [dumps, List.mem_cons, List.mem_append, List.mem_singleton] at hc
    rcases hc with (hc | hc) | hc
    · rw [hc]; decide
    · exact dumps_ge32_arr xs (by simpa [niceJ] using hv) c hc
    · rcases hc with hc | hc
      · rw [hc]; decide
      · simp at hc
  | obj ms =>
    intro c hc
    simp only [dumps, List.mem_cons, List.mem_append, List.mem_singleton] at hc
    rcases hc with (hc | hc) | hc
    · rw [hc]; decide
    · exact dumps_ge32_obj ms (by simpa [niceJ] using hv) c hc
    · rcases hc with hc | hc
      · rw [hc]; decide
      · simp at hc

/-- Element version. -/
theorem dumps_ge32_arr (xs : JArr) (hx : niceA xs = true) :
    ∀ c ∈ dumpsArr xs, 32 ≤ c.toNat := by
  cases xs with
  | nil => intro c hc; simp [dumpsArr] at hc
  | cons v tl =>
    have hx2 : niceJ v = true ∧ niceA tl = true := by
      simpa [niceA, Bool.and_eq_true] using hx
    cases tl with
    | nil =>
      intro c hc
      exact dumps_ge32_val v hx2.1 c (by simpa [dumpsArr] using hc)
    | cons w tl2 =>
      intro c hc
      have hc' : c ∈ dumps v ++ ',' :: ' ' :: dumpsArr (.cons w tl2) := hc
      rcases List.mem_append.mp hc' with h | h
      · exact dumps_ge32_val v hx2.1 c h
      · rcases List.mem_cons.mp h with h | h
        · rw [h]; decide
        · rcases List.mem_cons.mp h with h | h
          · rw [h]; decide
          · exact dumps_ge32_arr (.cons w tl2) hx2.2 c h

/-- Member version. -/
theorem dumps_ge32_obj (ms : JObj) (hm : niceO ms = true) :
    ∀ c ∈ dumpsObj ms, 32 ≤ c.toNat := by
  cases ms with
  | nil => intro c hc; simp [dumpsObj] at hc
  | cons k v tl =>
    have hm2 : (niceStr k = true ∧ niceJ v = true) ∧ niceO tl = true := by
      simpa [niceO, Bool.and_eq_true] using hm
    cases tl with
    | nil =>
      intro c hc
      have hc' : c ∈ (dquote :: escape k) ++ (dquote :: ':' :: ' ' :: dumps v) := hc
      rcases List.mem_append.mp hc' with h | h
      · rcases List.mem_cons.mp h with h | h
        · rw [h]; decide
        · exact escape_ge32 k hm2.1.1 c h
      · rcases List.mem_cons.mp h with h | h
        · rw [h]; decide
        · rcases List.mem_cons.mp h with h | h
          · rw [h]; decide
          · rcases List.mem_cons.mp h with h | h
            · rw [h]; decide
            · exact dumps_ge32_val v hm2.1.2 c h
    | cons k2 w tl2 =>
      intro c hc
      have hc' : c ∈ ((dquote :: escape k) ++ (dquote :: ':' :: ' ' :: dumps v))
          ++ (',' :: ' ' :: dumpsObj (.cons k2 w tl2)) := hc
      rcases List.mem_append.mp hc' with h | h
      · rcases List.mem_append.mp h with h | h
        · rcases List.mem_cons.mp h with h | h
          · rw [h]; decide
          · exact escape_ge32 k hm2.1.1 c h
        · rcases List.mem_cons.mp h with h | h
          · rw [h]; decide
          · rcases List.mem_cons.mp h with h | h
            · rw [h]; decide
            · rcases List.mem_cons.mp h with h | h
              · rw [h]; decide
              · exact dumps_ge32_val v hm2.1.2 c h
      · rcases List.mem_cons.mp h with h | h
        · rw [h]; decide
        · rcases List.mem_cons.mp h with h | h
          · rw [h]; decide
          · exact dumps_ge32_obj (.cons k2 w tl2) hm2.2 c h

end

/-- The control-character substitution is the identity on serialized
representable values. -/
theorem ctrlSub_dumps (v : Json) (hv : niceJ v = true) :
    ctrlSub (dumps v) = dumps v := by
  rw [ctrlSub, List.filter_eq_self]
  intro c hc
  have h32 := dumps_ge32_val v hv c hc
  simp [isCtrlStripped]
  omega

/-- The brace-span extraction is the identity on a serialized object: the
first left brace is the first character and the last right brace is the
last character. -/
theorem braceSpan_dumps_obj (ms : JObj) :
    braceSpan (dumps (.obj ms)) = dumps (.obj ms) := by
  have hshape : dumps (.obj ms) = lbrace :: (dumpsObj ms ++ [rbrace]) := by
    simp [dumps]
  have h1 : firstLBrace (dumps (.obj ms)) = some 0 := by
    rw [hshape]
    simp [firstLBrace, List.findIdx?_cons]
  have hrev : (dumps (.obj ms)).reverse
      = rbrace :: ((dumpsObj ms).reverse ++ [lbrace]) := by
    rw [hshape]; simp
  have h2 : lastRBrace (dumps (.obj ms))
      = some ((dumps (.obj ms)).length - 1) := by
    simp only [lastRBrace, hrev, List.findIdx?_cons]
    simp
  have hlen : 2 ≤ (dumps (.obj ms)).length := by
    rw [hshape]; simp
  simp only [braceSpan, h1, h2]
  rw [if_pos (by omega)]
  have heq : (dumps (.obj ms)).length - 1 - 0 + 1 = (dumps (.obj ms)).length := by
    omega
  rw [List.drop_zero, heq, List.take_length]

/-! The fence substitution on a fenced serialized object. -/

/-- The scanner leaves nothing on empty input. -/
theorem fenceAux_nil (fuel : Nat) (ls : Bool) : fenceAux fuel ls [] = [] := by
  cases fuel <;> rfl

/-- Dropping a prefix keeps the last element. -/
theorem dropWhile_getLast? (p : Char → Bool) (l : List Char)
    (h : l.dropWhile p ≠ []) : (l.dropWhile p).getLast? = l.getLast? := by
  induction l with
  | nil => simp at h
  | cons x xs ih =>
    by_cases hp : p x
    · rw [List.dropWhile_cons_of_pos hp] at h ⊢
      have hxs : xs ≠ [] := by
        intro he
        rw [he] at h
        simp at h
      rw [ih h]
      obtain ⟨b, L, hb⟩ := List.exists_cons_of_ne_nil hxs
      rw [hb, List.getLast?_cons_cons]
    · rw [List.dropWhile_cons_of_neg hp]

/-- The first alternative never fires on a non-backtick head. -/
theorem tryFenceOpen_of_head (c : Char) (r : List Char) (h : ¬ c = btick) :
    tryFenceOpen (c :: r) = none := by
  cases r with
  | nil => rfl
  | cons b r2 =>
    cases r2 with
    | nil => rfl
    | cons d r3 => simp [tryFenceOpen, h]

/-- Inside the body the second alternative never fires: the whitespace run
from any position stops at a character of the body (whose last character
is a right brace), and three backticks followed by the line end cannot
occur before the final newline. -/
theorem tryFenceClose_body (s : List Char)
    (hge : ∀ c ∈ s, 32 ≤ c.toNat)
    (hlast : s.getLast? = some rbrace) :
    tryFenceClose (s ++ nlChar :: [btick, btick, btick]) = none := by
  have hmemlast : rbrace ∈ s := List.mem_of_mem_getLast? hlast
  have hdwne : s.dropWhile isPyWs ≠ [] := by
    intro h
    rw [List.dropWhile_eq_nil_iff] at h
    exact absurd (h rbrace hmemlast) (by decide)
  have hsplit : (s ++ nlChar :: [btick, btick, btick]).dropWhile isPyWs
      = s.dropWhile isPyWs ++ nlChar :: [btick, btick, btick] := by
    rw [List.dropWhile_append, if_neg (by simpa [List.isEmpty_iff] using hdwne)]
  have hlast2 : (s.dropWhile isPyWs).getLast? = some rbrace := by
    rw [dropWhile_getLast? _ _ hdwne]
    exact hlast
  have hmem2 : ∀ c ∈ s.dropWhile isPyWs, 32 ≤ c.toNat := fun c hc =>
    hge c ((List.dropWhile_sublist _).subset hc)
  simp only [tryFenceClose, hsplit]
  obtain ⟨d1, E1, hd1⟩ := List.exists_cons_of_ne_nil hdwne
  rw [hd1] at hlast2 hmem2 ⊢
  cases E1 with
  | nil => simp [show (decide (nlChar = btick)) = false from by decide]
  | cons d2 E2 =>
    cases E2 with
    | nil => simp [show (decide (nlChar = btick)) = false from by decide]
    | cons d3 E3 =>
      by_cases h1 : d1 = btick
      · by_cases h2 : d2 = btick
        · by_cases h3 : d3 = btick
          · cases E3 with
            | nil =>
              exfalso
              have hd3 : d3 = rbrace := by simpa using hlast2
              rw [h3] at hd3
              exact absurd hd3 (by decide)
            | cons e E4 =>
              have he : 32 ≤ e.toNat := hmem2 e (by simp)
              have hene : ¬ (e = nlChar) := by
                intro hh
                rw [hh] at he
                exact absurd he (by decide)
              simp [h1, h2, h3, hene]
          · simp [h1, h2, h3]
        · simp [h1, h2]
      · simp [h1]

/-- Walking the scanner over the body: every body character is emitted
unchanged and the final newline-plus-fence is removed. -/
theorem fenceAux_body (s : List Char) :
    ∀ fuel, s.length + 4 ≤ fuel →
    (∀ c ∈ s, 32 ≤ c.toNat) →
    (s = [] ∨ s.getLast? = some rbrace) →
    fenceAux fuel false (s ++ nlChar :: [btick, btick, btick]) = s := by
  induction s with
  | nil =>
    intro fuel hfuel _ _
    obtain ⟨f, rfl⟩ : ∃ f, fuel = f + 1 := ⟨fuel - 1, by omega⟩
    have hstep : fenceAux (f + 1) false ([] ++ nlChar :: [btick, btick, btick])
        = fenceAux f false [] := rfl
    rw [hstep, fenceAux_nil]
  | cons c s' ih =>
    intro fuel hfuel hge hlast
    obtain ⟨f, rfl⟩ : ∃ f, fuel = f + 1 := ⟨fuel - 1, by omega⟩
    have hlast' : (c :: s').getLast? = some rbrace := by
      rcases hlast with h | h
      · simp at h
      · exact h
    have hclose : tryFenceClose (c :: (s' ++ nlChar :: [btick, btick, btick]))
        = none := tryFenceClose_body (c :: s') hge hlast'
    have hc32 : 32 ≤ c.toNat := hge c (List.mem_cons_self c s')
    have hcnl : ¬ (c = nlChar) := by
      intro hh
      rw [hh] at hc32
      exact absurd hc32 (by decide)
    have hstep : fenceAux (f + 1) false ((c :: s') ++ nlChar :: [btick, btick, btick])
        = c :: fenceAux f false (s' ++ nlChar :: [btick, btick, btick]) := by
      show fenceAux (f + 1) false (c :: (s' ++ nlChar :: [btick, btick, btick])) = _
      simp [fenceAux, hclose, hcnl]
    rw [hstep]
    congr 1
    refine ih f (by simp at hfuel ⊢; omega)
      (fun d hd => hge d (List.mem_cons_of_mem c hd)) ?_
    cases s' with
    | nil => exact .inl rfl
    | cons d s'' =>
      right
      rw [← List.getLast?_cons_cons (a := c)]
      exact hlast'

/-- The whole fence substitution on a fenced body: the opening fence (with
or without the `json` tag, up to and including the newline) and the
closing newline-plus-fence are removed, nothing else. -/
theorem fenceAux_wrapped (b : Bool) (body' : List Char)
    (hge : ∀ c ∈ lbrace :: body', 32 ≤ c.toNat)
    (hlast : (lbrace :: body').getLast? = some rbrace) :
    fenceAux (fenceWrap b (lbrace :: body')).length true (fenceWrap b (lbrace :: body'))
      = lbrace :: body' := by
  have hopen : ∀ f, fenceAux (f + 1) true (fenceWrap b (lbrace :: body'))
      = fenceAux f true (lbrace :: (body' ++ nlChar :: [btick, btick, btick])) := by
    intro f
    cases b
    · show fenceAux (f + 1) true (btick :: btick :: btick :: nlChar :: lbrace ::
        (body' ++ nlChar :: [btick, btick, btick])) = _
      simp [fenceAux, tryFenceOpen, stripJsonCI,
        show ¬ (nlChar = 'j') from by decide, show ¬ (nlChar = 'J') from by decide,
        show isPyWs nlChar = true from by decide,
        show isPyWs lbrace = false from by decide]
    · show fenceAux (f + 1) true (btick :: btick :: btick :: 'j' :: 's' :: 'o' :: 'n'
        :: nlChar :: lbrace :: (body' ++ nlChar :: [btick, btick, btick])) = _
      simp [fenceAux, tryFenceOpen, stripJsonCI,
        show isPyWs nlChar = true from by decide,
        show isPyWs lbrace = false from by decide]
  have hclose : tryFenceClose (lbrace :: (body' ++ nlChar :: [btick, btick, btick]))
      = none := tryFenceClose_body (lbrace :: body') hge hlast
  have hbrace : ∀ f, fenceAux (f + 1) true (lbrace ::
        (body' ++ nlChar :: [btick, btick, btick]))
      = lbrace :: fenceAux f false (body' ++ nlChar :: [btick, btick, btick]) := by
    intro f
    simp [fenceAux, tryFenceOpen_of_head lbrace _ (by decide), hclose,
      show ¬ (lbrace = nlChar) from by decide]
  have hf : ∃ f, (fenceWrap b (lbrace :: body')).length = (f + 1) + 1
      ∧ body'.length + 4 ≤ f := by
    cases b
    · refine ⟨body'.length + 7, ?_, by omega⟩
      simp [fenceWrap]
    · refine ⟨body'.length + 11, ?_, by omega⟩
      simp [fenceWrap]
  obtain ⟨f, hfe, hfb⟩ := hf
  rw [hfe, hopen (f + 1), hbrace f]
  congr 1
  refine fenceAux_body body' f hfb
    (fun d hd => hge d (List.mem_cons_of_mem lbrace hd)) ?_
  cases body' with
  | nil => exact .inl rfl
  | cons d s'' =>
    right
    rw [← List.getLast?_cons_cons (a := lbrace)]
    exact hlast

/-! Parser-serializer roundtrip: on representable values the strict parser
recovers exactly the value that `dumps` serialized.  This is the local
success half of the fenced-output claim. -/

/-- Characters with distinct code points are distinct. -/
theorem char_ne_of_toNat (c d : Char) (h : ¬ c.toNat = d.toNat) : ¬ c = d :=
  fun hh => h (hh ▸ rfl)

/-- A non-whitespace head survives `skipJWs`. -/
theorem skipJWs_cons (c : Char) (r : List Char) (h : isJsonWs c = false) :
    skipJWs (c :: r) = c :: r := by
  simp [skipJWs, List.dropWhile, h]

/-- A whitespace head is dropped by `skipJWs`. -/
theorem skipJWs_ws_cons (c : Char) (r : List Char) (h : isJsonWs c = true) :
    skipJWs (c :: r) = skipJWs r := by
  simp [skipJWs, List.dropWhile, h]

/-- `parseVal` ignores a leading space. -/
theorem parseVal_ws (fuel : Nat) (l : List Char) :
    parseVal fuel (' ' :: l) = parseVal fuel l := by
  cases fuel with
  | zero => rfl
  | succ f =>
    simp only [parseVal]
    rw [skipJWs_ws_cons ' ' l (by decide)]

/-- `parseElem` ignores a leading space (its first action is `parseVal`,
and the continuation depends only on the parse result). -/
theorem parseElem_ws (fuel : Nat) (l : List Char) :
    parseElem fuel (' ' :: l) = parseElem fuel l := by
  cases fuel with
  | zero => rfl
  | succ f => simp only [parseElem, parseVal_ws]

/-- Guard on the text following a serialized number: the next character, if
any, is not a digit, so the digit run of the number is read back exactly. -/
def numGuard (rest : List Char) : Prop :=
  ∀ c r, rest = c :: r → isDigitB c = false

/-- Every digit-list character is a digit. -/
theorem natDigitsAux_digit (fuel n : Nat) :
    ∀ c ∈ natDigitsAux fuel n, isDigitB c = true := by
  intro c hc
  obtain ⟨k, hk, hck⟩ := natDigitsAux_chars fuel n c hc
  rw [hck]
  simp only [isDigitB, digit_char_toNat k hk, Bool.and_eq_true, decide_eq_true_eq]
  omega

/-- `natDigits` never returns the empty list. -/
theorem natDigits_ne_nil (n : Nat) : natDigits n ≠ [] :=
  natDigitsAux_ne_nil n n

/-- All characters of `natDigits` are digits. -/
theorem natDigits_digit (n : Nat) : ∀ c ∈ natDigits n, isDigitB c = true :=
  natDigitsAux_digit (n + 1) n

/-- A digit run followed by guarded text splits back at the boundary. -/
theorem takeWhile_digits (ds rest : List Char)
    (hds : ∀ c ∈ ds, isDigitB c = true) (hg : numGuard rest) :
    (ds ++ rest).takeWhile isDigitB = ds
      ∧ (ds ++ rest).dropWhile isDigitB = rest := by
  induction ds with
  | nil =>
    cases rest with
    | nil => exact ⟨rfl, rfl⟩
    | cons c r =>
      have hc : isDigitB c = false := hg c r rfl
      constructor
      · simp [List.takeWhile, hc]
      · simp [List.dropWhile, hc]
  | cons d ds ih =>
    have hd : isDigitB d = true := hds d (List.mem_cons_self d ds)
    have ih' := ih (fun c hc => hds c (List.mem_cons_of_mem d hc))
    constructor
    · simp [List.takeWhile, hd, ih'.1]
    · simp [List.dropWhile, hd, ih'.2]

/-- Appending one digit multiplies the run value by ten. -/
theorem digitsVal_append (xs : List Char) (d : Char) :
    digitsVal (xs ++ [d]) = digitsVal xs * 10 + (d.toNat - 48) := by
  simp [digitsVal, List.foldl_append]

/-- With enough fuel the digit rendering evaluates back to the number. -/
theorem natDigitsAux_val :
    ∀ fuel n, n < 10 ^ fuel → digitsVal (natDigitsAux fuel n) = n := by
  intro fuel
  induction fuel with
  | zero =>
    intro n h
    have hn : n = 0 := by simpa using h
    subst hn
    rfl
  | succ fuel ih =>
    intro n h
    by_cases h10 : n < 10
    · simp [natDigitsAux, h10, digitsVal, digit_char_toNat n h10]
    · have hdiv : n / 10 < 10 ^ fuel := by
        have hp : (10 : Nat) ^ (fuel + 1) = 10 ^ fuel * 10 := pow_succ 10 fuel
        rw [hp] at h
        exact (Nat.div_lt_iff_lt_mul (by norm_num)).mpr h
      rw [natDigitsAux]
      simp only [if_neg h10]
      rw [digitsVal_append, ih (n / 10) hdiv,
        digit_char_toNat (n % 10) (Nat.mod_lt _ (by omega))]
      omega

/-- Every natural is below `10 ^ (n + 1)`. -/
theorem nat_lt_ten_pow (n : Nat) : n < 10 ^ (n + 1) :=
  lt_of_lt_of_le (Nat.lt_pow_self (by norm_num) n)
    (Nat.pow_le_pow_right (by norm_num) (Nat.le_succ n))

/-- Digit rendering round-trips. -/
theorem natDigits_val (n : Nat) : digitsVal (natDigits n) = n :=
  natDigitsAux_val (n + 1) n (nat_lt_ten_pow n)

/-- Number roundtrip: `parseNum` reads a rendered integer back exactly when
the following text does not start with a digit. -/
theorem parseNum_intRepr (n : Int) (rest : List Char) (hg : numGuard rest) :
    parseNum (intRepr n ++ rest) = some (.num n, rest) := by
  by_cases hneg : n < 0
  · have hm : intRepr n = '-' :: natDigits (-n).toNat := by
      simp [intRepr, hneg]
    have tk := takeWhile_digits (natDigits (-n).toNat) rest
      (natDigits_digit _) hg
    rw [hm, List.cons_append, parseNum]
    simp only [if_pos rfl, tk.1, tk.2, natDigits_ne_nil, if_neg (natDigits_ne_nil _),
      natDigits_val]
    have hcast : (((-n).toNat : Int)) = -n := Int.toNat_of_nonneg (by omega)
    rw [hcast]
    simp
  · have hm : intRepr n = natDigits n.toNat := by
      simp [intRepr, hneg]
    obtain ⟨d, ds', hds⟩ := List.exists_cons_of_ne_nil (natDigits_ne_nil n.toNat)
    have hdd : isDigitB d = true :=
      natDigits_digit n.toNat d (by rw [hds]; exact List.mem_cons_self d ds')
    have hdne : ¬ d = '-' := by
      intro hh
      rw [hh] at hdd
      exact absurd hdd (by decide)
    have tk := takeWhile_digits (d :: ds') rest
      (by rw [← hds]; exact natDigits_digit n.toNat) hg
    have hshape : intRepr n ++ rest = d :: (ds' ++ rest) := by
      rw [hm, hds, List.cons_append]
    rw [hshape, parseNum]
    have hfull : d :: (ds' ++ rest) = (d :: ds') ++ rest := rfl
    simp only [if_neg hdne, hfull, tk.1, tk.2]
    have hne2 : d :: ds' ≠ [] := by simp
    simp only [if_neg hne2]
    have hval : digitsVal (d :: ds') = n.toNat := by rw [← hds, natDigits_val]
    rw [hval, Int.toNat_of_nonneg (by omega)]

/-- The string parser stops at an unescaped closing quote. -/
theorem parseStrBody_close (r : List Char) :
    parseStrBody (dquote :: r) = some ([], r) := by
  rw [parseStrBody.eq_def]
  simp

/-- The string parser decodes a two-character escape and continues. -/
theorem parseStrBody_esc (e u : Char) (X s' rest : List Char)
    (hu : unescChar e = some u) (ih : parseStrBody X = some (s', rest)) :
    parseStrBody (bslash :: e :: X) = some (u :: s', rest) := by
  rw [parseStrBody.eq_def]
  have hbq : (bslash = dquote) = False := eq_false (by decide)
  simp [hbq, hu, ih]

/-- The string parser accepts a raw non-control character and continues. -/
theorem parseStrBody_raw (c : Char) (X s' rest : List Char)
    (h1 : ¬ c = dquote) (h2 : ¬ c = bslash) (hge : 32 ≤ c.toNat)
    (ih : parseStrBody X = some (s', rest)) :
    parseStrBody (c :: X) = some (c :: s', rest) := by
  rw [parseStrBody.eq_def]
  have hlt : (c.toNat < 32) = False := eq_false (by omega)
  simp [h1, h2, hlt, ih]

/-- String roundtrip: the strict string parser reads an escaped
representable body back exactly up to the closing quote. -/
theorem parseStrBody_escape (s rest : List Char) (hs : niceStr s = true) :
    parseStrBody (escape s ++ dquote :: rest) = some (s, rest) := by
  induction s with
  | nil =>
    simp only [escape, List.flatMap_nil, List.nil_append]
    exact parseStrBody_close rest
  | cons c s' ih =>
    have hni : niceChar c = true ∧ niceStr s' = true := by
      simpa [niceStr, List.all_cons, Bool.and_eq_true] using hs
    have ih' := ih hni.2
    have hesc : escape (c :: s') = escChar c ++ escape s' := by simp [escape]
    rw [hesc, List.append_assoc]
    by_cases h1 : c = dquote
    · subst h1
      rw [show escChar dquote = [bslash, dquote] from rfl, List.cons_append,
        List.cons_append, List.nil_append]
      exact parseStrBody_esc dquote dquote _ s' rest rfl ih'
    · by_cases h2 : c = bslash
      · subst h2
        rw [show escChar bslash = [bslash, bslash] from rfl, List.cons_append,
          List.cons_append, List.nil_append]
        exact parseStrBody_esc bslash bslash _ s' rest rfl ih'
      · by_cases h3 : c.toNat = 10
        · have hc : c = nlChar := charToNatInj c nlChar (by rw [h3]; rfl)
          subst hc
          rw [show escChar nlChar = [bslash, 'n'] from rfl, List.cons_append,
            List.cons_append, List.nil_append]
          exact parseStrBody_esc 'n' nlChar _ s' rest rfl ih'
        · by_cases h4 : c.toNat = 9
          · have hc : c = Char.ofNat 9 :=
              charToNatInj c (Char.ofNat 9) (by rw [h4]; rfl)
            subst hc
            rw [show escChar (Char.ofNat 9) = [bslash, 't'] from rfl, List.cons_append,
              List.cons_append, List.nil_append]
            exact parseStrBody_esc 't' (Char.ofNat 9) _ s' rest rfl ih'
          · by_cases h5 : c.toNat = 13
            · have hc : c = Char.ofNat 13 :=
                charToNatInj c (Char.ofNat 13) (by rw [h5]; rfl)
              subst hc
              rw [show escChar (Char.ofNat 13) = [bslash, 'r'] from rfl,
                List.cons_append, List.cons_append, List.nil_append]
              exact parseStrBody_esc 'r' (Char.ofNat 13) _ s' rest rfl ih'
            · by_cases h6 : c.toNat = 8
              · have hc : c = Char.ofNat 8 :=
                  charToNatInj c (Char.ofNat 8) (by rw [h6]; rfl)
                subst hc
                rw [show escChar (Char.ofNat 8) = [bslash, 'b'] from rfl,
                  List.cons_append, List.cons_append, List.nil_append]
                exact parseStrBody_esc 'b' (Char.ofNat 8) _ s' rest rfl ih'
              · by_cases h7 : c.toNat = 12
                · have hc : c = Char.ofNat 12 :=
                    charToNatInj c (Char.ofNat 12) (by rw [h7]; rfl)
                  subst hc
                  rw [show escChar (Char.ofNat 12) = [bslash, 'f'] from rfl,
                    List.cons_append, List.cons_append, List.nil_append]
                  exact parseStrBody_esc 'f' (Char.ofNat 12) _ s' rest rfl ih'
                · have hraw : escChar c = [c] := by
                    simp [escChar, h1, h2, h3, h4, h5, h6, h7]
                  have hge : 32 ≤ c.toNat := by
                    have := hni.1
                    simp only [niceChar, Bool.or_eq_true, decide_eq_true_eq] at this
                    rcases this with ((((h | h) | h) | h) | h) | h <;> omega
                  rw [hraw, List.cons_append, List.nil_append]
                  exact parseStrBody_raw c _ s' rest h1 h2 hge ih'

/-- A cons list whose head is not a digit satisfies the number guard. -/
theorem numGuard_cons (c : Char) (r : List Char) (h : isDigitB c = false) :
    numGuard (c :: r) := by
  intro c' r' hh
  injection hh with h1 _
  rw [← h1]
  exact h

/-- A nonempty member list serializes starting with a quote. -/
theorem dumpsObj_cons_decomp (k : List Char) (v : Json) (tl : JObj) :
    ∃ S, dumpsObj (.cons k v tl) = dquote :: S := by
  cases tl with
  | nil => exact ⟨_, rfl⟩
  | cons k2 w tl2 => exact ⟨_, rfl⟩

/-- The serialization of any value begins with a character that is not
JSON whitespace and not a closing delimiter. -/
theorem dumps_head_json (v : Json) :
    ∃ c r, dumps v = c :: r ∧ isJsonWs c = false ∧ ¬ c = ']' := by
  obtain ⟨c, r, hcr, hfl⟩ := dumps_head_flushy v
  refine ⟨c, r, hcr, ?_, ?_⟩
  · simp only [flushy, Bool.and_eq_true, Bool.not_eq_true',
      decide_eq_false_iff_not] at hfl
    obtain ⟨⟨⟨h1, h2⟩, h3⟩, h4⟩ := hfl
    simp only [isPyWs, Bool.or_eq_false_iff, decide_eq_false_iff_not] at h2
    simp only [isJsonWs, Bool.or_eq_false_iff, decide_eq_false_iff_not]
    exact h2.1.1
  · simp only [flushy, Bool.and_eq_true, Bool.not_eq_true',
      decide_eq_false_iff_not] at hfl
    exact hfl.2

/-- `parseVal` reads back a serialized `null`. -/
theorem parseVal_dumps_null (f : Nat) (rest : List Char) :
    parseVal (f + 1) (dumps .null ++ rest) = some (.null, rest) := by
  rw [show dumps .null ++ rest = 'n' :: 'u' :: 'l' :: 'l' :: rest from rfl,
    parseVal.eq_def]
  have h1 : ('n' = lbrace) = False := eq_false (by decide)
  have h2 : ('n' = '[') = False := eq_false (by decide)
  have h3 : ('n' = dquote) = False := eq_false (by decide)
  have h4 : ('n' = 't') = False := eq_false (by decide)
  have h5 : ('n' = 'f') = False := eq_false (by decide)
  have hws : isJsonWs 'n' = false := by decide
  simp [skipJWs, List.dropWhile, hws, h1, h2, h3, h4, h5, dropLit]

/-- `parseVal` reads back a serialized `true`. -/
theorem parseVal_dumps_true (f : Nat) (rest : List Char) :
    parseVal (f + 1) (dumps (.boolean true) ++ rest) = some (.boolean true, rest) := by
  rw [show dumps (.boolean true) ++ rest = 't' :: 'r' :: 'u' :: 'e' :: rest from rfl,
    parseVal.eq_def]
  have h1 : ('t' = lbrace) = False := eq_false (by decide)
  have h2 : ('t' = '[') = False := eq_false (by decide)
  have h3 : ('t' = dquote) = False := eq_false (by decide)
  have hws : isJsonWs 't' = false := by decide
  simp [skipJWs, List.dropWhile, hws, h1, h2, h3, dropLit]

/-- `parseVal` reads back a serialized `false`. -/
theorem parseVal_dumps_false (f : Nat) (rest : List Char) :
    parseVal (f + 1) (dumps (.boolean false) ++ rest)
      = some (.boolean false, rest) := by
  rw [show dumps (.boolean false) ++ rest
      = 'f' :: 'a' :: 'l' :: 's' :: 'e' :: rest from rfl, parseVal.eq_def]
  have h1 : ('f' = lbrace) = False := eq_false (by decide)
  have h2 : ('f' = '[') = False := eq_false (by decide)
  have h3 : ('f' = dquote) = False := eq_false (by decide)
  have h4 : ('f' = 't') = False := eq_false (by decide)
  have hws : isJsonWs 'f' = false := by decide
  simp [skipJWs, List.dropWhile, hws, h1, h2, h3, h4, dropLit]

/-- `parseVal` reads back a serialized string. -/
theorem parseVal_dumps_str (f : Nat) (s rest : List Char) (hs : niceStr s = true) :
    parseVal (f + 1) (dumps (.str s) ++ rest) = some (.str s, rest) := by
  rw [show dumps (.str s) ++ rest = dquote :: (escape s ++ dquote :: rest) by
    simp [dumps], parseVal.eq_def]
  have h1 : (dquote = lbrace) = False := eq_false (by decide)
  have h2 : (dquote = '[') = False := eq_false (by decide)
  simp only [skipJWs_cons _ _ (show isJsonWs dquote = false from by decide),
    h1, h2, if_false, parseStrBody_escape s rest hs]
  simp

/-- `parseVal` reads back a serialized number when the following text does
not start with a digit. -/
theorem parseVal_dumps_num (f : Nat) (n : Int) (rest : List Char)
    (hg : numGuard rest) :
    parseVal (f + 1) (dumps (.num n) ++ rest) = some (.num n, rest) := by
  have hne : intRepr n ≠ [] := by
    simp only [intRepr, natDigits]
    split
    · simp
    · exact natDigitsAux_ne_nil _ _
  obtain ⟨d, ds, hds⟩ := List.exists_cons_of_ne_nil hne
  have hdm := intRepr_chars n d (by rw [hds]; exact List.mem_cons_self d ds)
  have hdt : d.toNat = 45 ∨ (48 ≤ d.toNat ∧ d.toNat ≤ 57) := by
    rcases hdm with h | ⟨k, hk, h⟩
    · left; rw [h]; rfl
    · right; rw [h, digit_char_toNat k hk]; omega
  have h1 : ¬ d = lbrace := fun hh => by rw [hh] at hdt; revert hdt; decide
  have h2 : ¬ d = '[' := fun hh => by rw [hh] at hdt; revert hdt; decide
  have h3 : ¬ d = dquote := fun hh => by rw [hh] at hdt; revert hdt; decide
  have h4 : ¬ d = 't' := fun hh => by rw [hh] at hdt; revert hdt; decide
  have h5 : ¬ d = 'f' := fun hh => by rw [hh] at hdt; revert hdt; decide
  have h6 : ¬ d = 'n' := fun hh => by rw [hh] at hdt; revert hdt; decide
  have hws : isJsonWs d = false := by
    have hsp : ¬ d = ' ' := fun hh => by rw [hh] at hdt; revert hdt; decide
    simp only [isJsonWs, Bool.or_eq_false_iff, decide_eq_false_iff_not]
    refine ⟨⟨⟨hsp, ?_⟩, ?_⟩, ?_⟩ <;> omega
  have hnum : (d = '-' || isDigitB d) = true := by
    rcases hdm with h | ⟨k, hk, h⟩
    · simp [h]
    · have hdig : isDigitB d = true := by
        simp only [isDigitB, Bool.and_eq_true, decide_eq_true_eq]
        rw [h, digit_char_toNat k hk]
        constructor <;> omega
      simp [hdig]
  rw [show dumps (.num n) ++ rest = d :: (ds ++ rest) by
    rw [dumps, hds, List.cons_append], parseVal.eq_def]
  simp only [skipJWs_cons _ _ hws, if_neg h1, if_neg h2, if_neg h3, if_neg h4,
    if_neg h5, if_neg h6, hnum, if_true]
  rw [show d :: (ds ++ rest) = intRepr n ++ rest by rw [hds, List.cons_append]]
  simp [parseNum_intRepr n rest hg]

/-- `parseVal` reads back a serialized empty object. -/
theorem parseVal_dumps_objnil (f : Nat) (rest : List Char) :
    parseVal (f + 2) (dumps (.obj .nil) ++ rest) = some (.obj .nil, rest) := by
  rw [parseVal.eq_def]
  rw [show dumps (.obj .nil) ++ rest = lbrace :: (rbrace :: rest) by
    simp [dumps, dumpsObj]]
  simp only [skipJWs_cons _ _ (show isJsonWs lbrace = false from by decide),
    if_true, eq_self_iff_true]
  rw [parseMembersFirst.eq_def]
  simp only [skipJWs_cons _ _ (show isJsonWs rbrace = false from by decide)]
  simp

/-- `parseVal` reads back a serialized empty array. -/
theorem parseVal_dumps_arrnil (f : Nat) (rest : List Char) :
    parseVal (f + 2) (dumps (.arr .nil) ++ rest) = some (.arr .nil, rest) := by
  rw [parseVal.eq_def]
  rw [show dumps (.arr .nil) ++ rest = '[' :: (']' :: rest) by
    simp [dumps, dumpsArr]]
  have hlb : ('[' = lbrace) = False := eq_false (by decide)
  simp only [skipJWs_cons _ _ (show isJsonWs '[' = false from by decide),
    hlb, if_false, if_true, eq_self_iff_true]
  rw [parseElemsFirst.eq_def]
  simp only [skipJWs_cons _ _ (show isJsonWs ']' = false from by decide)]
  simp

mutual

/-- Value roundtrip: with fuel at least the value's parser cost, the
parser reads a serialized representable value back exactly. -/
theorem parseVal_dumps (v : Json) (hv : niceJ v = true) :
    ∀ fuel rest, sizeJ v ≤ fuel → numGuard rest →
      parseVal fuel (dumps v ++ rest) = some (v, rest) := by
  cases v with
  | null =>
    intro fuel rest hf _
    cases fuel with
    | zero => simp [sizeJ] at hf
    | succ f => exact parseVal_dumps_null f rest
  | boolean b =>
    intro fuel rest hf _
    cases fuel with
    | zero => simp [sizeJ] at hf
    | succ f =>
      cases b with
      | true => exact parseVal_dumps_true f rest
      | false => exact parseVal_dumps_false f rest
  | num n =>
    intro fuel rest hf hg
    cases fuel with
    | zero => simp [sizeJ] at hf
    | succ f => exact parseVal_dumps_num f n rest hg
  | str s =>
    intro fuel rest hf _
    cases fuel with
    | zero => simp [sizeJ] at hf
    | succ f => exact parseVal_dumps_str f s rest (by simpa [niceJ] using hv)
  | arr xs =>
    intro fuel rest hf _
    cases fuel with
    | zero => simp [sizeJ] at hf
    | succ f =>
      cases f with
      | zero => simp [sizeJ] at hf; omega
      | succ f2 =>
        cases xs with
        | nil => exact parseVal_dumps_arrnil f2 rest
        | cons w tl =>
          have hx : niceA (.cons w tl) = true := by simpa [niceJ] using hv
          have hA : sizeA (.cons w tl) ≤ f2 := by
            simp only [sizeJ] at hf
            omega
          have hR2 := parseElem_dumps (.cons w tl) hx f2 rest (by simp) hA
          rw [parseVal.eq_def]
          rw [show dumps (.arr (.cons w tl)) ++ rest
              = '[' :: (dumpsArr (.cons w tl) ++ ']' :: rest) by simp [dumps]]
          have hlb : ('[' = lbrace) = False := eq_false (by decide)
          simp only [skipJWs_cons _ _ (show isJsonWs '[' = false from by decide),
            hlb, if_false, if_true, eq_self_iff_true]
          rw [parseElemsFirst.eq_def]
          obtain ⟨c, cr, hcr, hws2, hnb⟩ := dumps_head_json w
          have htail : ∃ tail, dumpsArr (.cons w tl) = dumps w ++ tail := by
            cases tl with
            | nil => exact ⟨[], by simp [dumpsArr]⟩
            | cons y tl2 => exact ⟨_, rfl⟩
          obtain ⟨tail, htail⟩ := htail
          have hL : dumpsArr (.cons w tl) ++ ']' :: rest
              = c :: (cr ++ tail ++ ']' :: rest) := by
            rw [htail, hcr]
            simp
          rw [hL] at hR2 ⊢
          simp only [skipJWs_cons _ _ hws2, if_neg hnb, hR2]
  | obj ms =>
    intro fuel rest hf _
    cases fuel with
    | zero => simp [sizeJ] at hf
    | succ f =>
      cases f with
      | zero => simp [sizeJ] at hf; omega
      | succ f2 =>
        cases ms with
        | nil => exact parseVal_dumps_objnil f2 rest
        | cons k w tl =>
          have hm : niceO (.cons k w tl) = true := by simpa [niceJ] using hv
          have hO : sizeO (.cons k w tl) ≤ f2 := by
            simp only [sizeJ] at hf
            omega
          have hR3 := parseMember_dumps (.cons k w tl) hm f2 rest (by simp) hO
          rw [parseVal.eq_def]
          rw [show dumps (.obj (.cons k w tl)) ++ rest
              = lbrace :: (dumpsObj (.cons k w tl) ++ rbrace :: rest) by
            simp [dumps]]
          simp only [skipJWs_cons _ _ (show isJsonWs lbrace = false from by decide),
            if_true, eq_self_iff_true]
          rw [parseMembersFirst.eq_def]
          obtain ⟨S, hs2⟩ := dumpsObj_cons_decomp k w tl
          rw [hs2, List.cons_append] at hR3 ⊢
          have hqb : (dquote = rbrace) = False := eq_false (by decide)
          simp only [skipJWs_cons _ _ (show isJsonWs dquote = false from by decide),
            hqb, if_false, if_true, eq_self_iff_true, hR3]

/-- Element-list roundtrip: the element parser reads serialized elements
back through the closing bracket. -/
theorem parseElem_dumps (xs : JArr) (hx : niceA xs = true) :
    ∀ fuel rest, xs ≠ .nil → sizeA xs ≤ fuel →
      parseElem fuel (dumpsArr xs ++ ']' :: rest) = some (xs, rest) := by
  cases xs with
  | nil => intro _ _ h _; exact absurd rfl h
  | cons v tl =>
    intro fuel rest _ hf
    cases fuel with
    | zero => simp [sizeA] at hf
    | succ f =>
      have hnice : niceJ v = true ∧ niceA tl = true := by
        simpa [niceA, Bool.and_eq_true] using hx
      have hfv : sizeJ v ≤ f := by
        simp only [sizeA] at hf
        omega
      have hR1 : ∀ rest2, numGuard rest2 →
          parseVal f (dumps v ++ rest2) = some (v, rest2) :=
        fun rest2 hg2 => parseVal_dumps v hnice.1 f rest2 hfv hg2
      cases tl with
      | nil =>
        rw [parseElem.eq_def]
        rw [show dumpsArr (.cons v .nil) ++ ']' :: rest = dumps v ++ ']' :: rest by
          simp [dumpsArr]]
        simp only [hR1 (']' :: rest) (numGuard_cons _ _ (by decide))]
        rw [skipJWs_cons _ _ (by decide)]
        simp
      | cons w tl2 =>
        have hft : sizeA (.cons w tl2) ≤ f := by
          simp only [sizeA] at hf ⊢
          omega
        have hR2 := parseElem_dumps (.cons w tl2) hnice.2 f rest (by simp) hft
        rw [parseElem.eq_def]
        rw [show dumpsArr (.cons v (.cons w tl2)) ++ ']' :: rest
            = dumps v ++ ',' :: ' ' :: (dumpsArr (.cons w tl2) ++ ']' :: rest) by
          simp [dumpsArr]]
        simp only [hR1 (',' :: ' ' :: (dumpsArr (.cons w tl2) ++ ']' :: rest))
          (numGuard_cons _ _ (by decide))]
        rw [skipJWs_cons _ _ (by decide)]
        have hne2 : (',' = ']') = False := eq_false (by decide)
        simp only [hne2, if_false, if_true, eq_self_iff_true, parseElem_ws, hR2]

/-- Member-list roundtrip: the member parser reads serialized members back
through the closing brace. -/
theorem parseMember_dumps (ms : JObj) (hm : niceO ms = true) :
    ∀ fuel rest, ms ≠ .nil → sizeO ms ≤ fuel →
      parseMember fuel (dumpsObj ms ++ rbrace :: rest) = some (ms, rest) := by
  cases ms with
  | nil => intro _ _ h _; exact absurd rfl h
  | cons k v tl =>
    intro fuel rest _ hf
    cases fuel with
    | zero => simp [sizeO] at hf
    | succ f =>
      have hnice : (niceStr k = true ∧ niceJ v = true) ∧ niceO tl = true := by
        simpa [niceO, Bool.and_eq_true] using hm
      have hfv : sizeJ v ≤ f := by
        simp only [sizeO] at hf
        omega
      have hS : ∀ r2, parseStrBody (escape k ++ dquote :: r2) = some (k, r2) :=
        fun r2 => parseStrBody_escape k r2 hnice.1.1
      have hR1 : ∀ rest2, numGuard rest2 →
          parseVal f (dumps v ++ rest2) = some (v, rest2) :=
        fun rest2 hg2 => parseVal_dumps v hnice.1.2 f rest2 hfv hg2
      cases tl with
      | nil =>
        rw [parseMember.eq_def]
        rw [show dumpsObj (.cons k v .nil) ++ rbrace :: rest
            = dquote :: (escape k ++ dquote
                :: (':' :: ' ' :: (dumps v ++ rbrace :: rest))) by
          simp [dumpsObj]]
        simp only [if_true, eq_self_iff_true,
          hS (':' :: ' ' :: (dumps v ++ rbrace :: rest))]
        rw [skipJWs_cons _ _ (by decide)]
        simp only [parseVal_ws,
          hR1 (rbrace :: rest) (numGuard_cons _ _ (by decide))]
        rw [skipJWs_cons _ _ (by decide)]
        simp
      | cons k2 w tl2 =>
        have hft : sizeO (.cons k2 w tl2) ≤ f := by
          simp only [sizeO] at hf ⊢
          omega
        have hR3 := parseMember_dumps (.cons k2 w tl2) hnice.2 f rest (by simp) hft
        rw [parseMember.eq_def]
        rw [show dumpsObj (.cons k v (.cons k2 w tl2)) ++ rbrace :: rest
            = dquote :: (escape k ++ dquote :: (':' :: ' ' :: (dumps v
                ++ ',' :: ' ' :: (dumpsObj (.cons k2 w tl2) ++ rbrace :: rest)))) by
          simp [dumpsObj]]
        simp only [if_true, eq_self_iff_true,
          hS (':' :: ' ' :: (dumps v
            ++ ',' :: ' ' :: (dumpsObj (.cons k2 w tl2) ++ rbrace :: rest)))]
        rw [skipJWs_cons _ _ (by decide)]
        simp only [parseVal_ws,
          hR1 (',' :: ' ' :: (dumpsObj (.cons k2 w tl2) ++ rbrace :: rest))
            (numGuard_cons _ _ (by decide))]
        rw [skipJWs_cons _ _ (by decide)]
        have hcb : (',' = rbrace) = False := eq_false (by decide)
        obtain ⟨S, hs2⟩ := dumpsObj_cons_decomp k2 w tl2
        have hskip : skipJWs (' ' :: (dumpsObj (.cons k2 w tl2) ++ rbrace :: rest))
            = dumpsObj (.cons k2 w tl2) ++ rbrace :: rest := by
          rw [show skipJWs (' ' :: (dumpsObj (.cons k2 w tl2) ++ rbrace :: rest))
              = skipJWs (dumpsObj (.cons k2 w tl2) ++ rbrace :: rest) from
            skipJWs_ws_cons _ _ (by decide)]
          rw [hs2, List.cons_append]
          exact skipJWs_cons _ _ (by decide)
        simp only [hcb, if_false, if_true, eq_self_iff_true, hskip, hR3]

end

/-- The serialization of a value is never empty. -/
theorem dumps_ne_nil (v : Json) : dumps v ≠ [] := by
  obtain ⟨c, r, hcr, _⟩ := dumps_head_flushy v
  rw [hcr]
  simp

mutual

/-- The parser cost of a value is dominated by twice its serialized
length. -/
theorem sizeJ_le (v : Json) : sizeJ v ≤ 2 * (dumps v).length := by
  cases v with
  | null => decide
  | boolean b => cases b <;> decide
  | num n =>
    have h1 : 1 ≤ (dumps (.num n)).length := by
      have := dumps_ne_nil (.num n)
      cases hd : dumps (.num n) with
      | nil => exact absurd hd this
      | cons c r => simp
    simp only [sizeJ]
    omega
  | str s =>
    have h1 : 1 ≤ (dumps (.str s)).length := by
      simp [dumps]
    simp only [sizeJ]
    omega
  | arr xs =>
    have h := sizeA_le xs
    have hlen : (dumps (.arr xs)).length = 2 + (dumpsArr xs).length := by
      simp [dumps]
      omega
    simp only [sizeJ, hlen]
    omega
  | obj ms =>
    have h := sizeO_le ms
    have hlen : (dumps (.obj ms)).length = 2 + (dumpsObj ms).length := by
      simp [dumps]
      omega
    simp only [sizeJ, hlen]
    omega

/-- Element-list version of the cost bound. -/
theorem sizeA_le (xs : JArr) : sizeA xs ≤ 2 * (dumpsArr xs).length + 1 := by
  cases xs with
  | nil => decide
  | cons v tl =>
    have hv := sizeJ_le v
    cases tl with
    | nil =>
      simp only [sizeA, sizeA.eq_1, dumpsArr, Nat.max_def]
      split <;> omega
    | cons w tl2 =>
      have ht := sizeA_le (.cons w tl2)
      have hlen : (dumpsArr (.cons v (.cons w tl2))).length
          = (dumps v).length + 2 + (dumpsArr (.cons w tl2)).length := by
        simp [dumpsArr]
        omega
      rw [show sizeA (.cons v (.cons w tl2))
          = 1 + max (sizeJ v) (sizeA (.cons w tl2)) from rfl, hlen, Nat.max_def]
      split <;> omega

/-- Member-list version of the cost bound. -/
theorem sizeO_le (ms : JObj) : sizeO ms ≤ 2 * (dumpsObj ms).length + 1 := by
  cases ms with
  | nil => decide
  | cons k v tl =>
    have hv := sizeJ_le v
    cases tl with
    | nil =>
      have hlen : (dumpsObj (.cons k v .nil)).length
          = 4 + (escape k).length + (dumps v).length := by
        simp [dumpsObj]
        omega
      simp only [sizeO, sizeO.eq_1, hlen, Nat.max_def]
      split <;> omega
    | cons k2 w tl2 =>
      have ht := sizeO_le (.cons k2 w tl2)
      have hlen : (dumpsObj (.cons k v (.cons k2 w tl2))).length
          = 4 + (escape k).length + (dumps v).length + 2
            + (dumpsObj (.cons k2 w tl2)).length := by
        simp [dumpsObj]
        omega
      rw [show sizeO (.cons k v (.cons k2 w tl2))
          = 1 + max (sizeJ v) (sizeO (.cons k2 w tl2)) from rfl, hlen, Nat.max_def]
      split <;> omega

end

/-- The empty continuation satisfies the number guard vacuously. -/
theorem numGuard_nil : numGuard [] := by
  intro c r h
  simp at h

/-- Whole-text roundtrip: `loads` recovers a serialized representable
value exactly. -/
theorem loads_dumps (v : Json) (hv : niceJ v = true) :
    loads (dumps v) = some v := by
  have hfuel : sizeJ v ≤ 2 * (dumps v).length + 2 := by
    have := sizeJ_le v
    omega
  have hp : parseVal (2 * (dumps v).length + 2) (dumps v ++ []) = some (v, []) :=
    parseVal_dumps v hv _ [] hfuel numGuard_nil
  rw [List.append_nil] at hp
  rw [loads, hp]
  simp [skipJWs]

/-- `str.strip()` is the identity when both ends are non-whitespace. -/
theorem pyStrip_id (c d : Char) (l : List Char) (hc : isPyWs c = false)
    (hd : isPyWs d = false) (hl : (c :: l).getLast? = some d) :
    pyStrip (c :: l) = c :: l := by
  rw [pyStrip]
  rw [show (c :: l).dropWhile isPyWs = c :: l by simp [List.dropWhile, hc]]
  have hrev : (c :: l).reverse.head? = some d := by
    rw [List.head?_reverse]
    exact hl
  cases hr : (c :: l).reverse with
  | nil => simp at hr
  | cons e rr =>
    rw [hr] at hrev
    have he : e = d := by
      simpa using hrev
    subst he
    rw [show (e :: rr).dropWhile isPyWs = e :: rr by simp [List.dropWhile, hd]]
    rw [← hr, List.reverse_reverse]

/-- The code fence wrapping of a serialized object is stripped back to
exactly the serialized object. -/
theorem strip_fence_obj (b : Bool) (ms : JObj) (hm : niceO ms = true) :
    _strip_json_fence (fenceWrap b (dumps (.obj ms))) = dumps (.obj ms) := by
  have hshape : dumps (.obj ms) = lbrace :: (dumpsObj ms ++ [rbrace]) := by
    simp [dumps]
  have hlastd : (lbrace :: (dumpsObj ms ++ [rbrace])).getLast? = some rbrace := by
    rw [show lbrace :: (dumpsObj ms ++ [rbrace])
        = (lbrace :: dumpsObj ms) ++ [rbrace] from by simp]
    exact List.getLast?_concat _
  have hge : ∀ c ∈ lbrace :: (dumpsObj ms ++ [rbrace]), 32 ≤ c.toNat := by
    intro c hcm
    rw [← hshape] at hcm
    exact dumps_ge32_val (.obj ms) (by simpa [niceJ] using hm) c hcm
  have hhead : ∃ R, fenceWrap b (dumps (.obj ms)) = btick :: R := by
    cases b <;> exact ⟨_, rfl⟩
  obtain ⟨R, hR⟩ := hhead
  have htail : fenceWrap b (dumps (.obj ms))
      = ([btick, btick, btick] ++ (if b then ['j', 's', 'o', 'n'] else [])
          ++ nlChar :: dumps (.obj ms) ++ [nlChar, btick, btick]) ++ [btick] := by
    simp [fenceWrap]
  have hlastw : (fenceWrap b (dumps (.obj ms))).getLast? = some btick := by
    rw [htail]
    exact List.getLast?_concat _
  have hstrip : pyStrip (fenceWrap b (dumps (.obj ms)))
      = fenceWrap b (dumps (.obj ms)) := by
    rw [hR]
    exact pyStrip_id btick btick R (by decide) (by decide) (by rw [← hR]; exact hlastw)
  rw [_strip_json_fence]
  simp only [hstrip]
  rw [show fenceWrap b (dumps (.obj ms))
      = fenceWrap b (lbrace :: (dumpsObj ms ++ [rbrace])) from by rw [← hshape]]
  rw [fenceAux_wrapped b (dumpsObj ms ++ [rbrace]) hge hlastd, ← hshape]

/-- End-to-end extraction: `load_json_strict` on a fenced serialized
object parses successfully, returning the comma-mapped value (the comma
substitution is the only transformation with an effect, and it only acts
inside string literals containing a comma directly before a space-padded
closing delimiter). -/
theorem load_json_strict_fenced (b : Bool) (ms : JObj) (hm : niceO ms = true) :
    load_json_strict (fenceWrap b (dumps (.obj ms)))
      = some (csMapJ (.obj ms)) := by
  have hnice : niceJ (.obj ms) = true := by simpa [niceJ] using hm
  rw [load_json_strict]
  simp only [strip_fence_obj b ms hm, braceSpan_dumps_obj ms,
    commaSub_dumps (.obj ms) hnice, ctrlSub_dumps (csMapJ (.obj ms)) (niceJ_csMap _ hnice)]
  exact loads_dumps (csMapJ (.obj ms)) (niceJ_csMap _ hnice)

/-- Claim C8: for every generation-service response whose first choice is a
well-formed structured object wrapped in code-fence markup (preceded by
three backticks with or without the `json` tag, followed by three
backticks), `call_json` parses the object locally — returning the value
after the unconditional comma substitution, which is the identity off the
affected string interiors — and the repair pass is not invoked: the issued
requests are exactly the one main request, whatever response the repair
oracle would give. -/
theorem claim_C8_fenced_json (ms : JObj) (b : Bool) (txt : List Char)
    (more : List (List Char)) (o2 : LLMResponse) (p : UserPayload) (mt : Nat)
    (hm : niceO ms = true) :
    call_json ⟨true⟩ ⟨⟨200, txt, fenceWrap b (dumps (.obj ms)) :: more⟩, o2⟩ p mt
      = (.ok (csMapJ (.obj ms)), [⟨p, some mt, true, 40⟩]) := by
  rw [call_json]
  simp only [ds_chat]
  simp only [show (200 : Nat) ≠ 200 ↔ False from by simp, if_false]
  simp [load_json_strict_fenced b ms hm]

/-- Witness for C8 at the fenced serialization of the object with the
single member `"ok": 1`, with a repair oracle that would fail if it were
consulted. -/
theorem claim_C8_witness :
    niceO (JObj.cons ['o', 'k'] (Json.num 1) JObj.nil) = true
    ∧ call_json ⟨true⟩
        ⟨⟨200, [],
          [fenceWrap true (dumps (.obj (.cons ['o', 'k'] (.num 1) .nil)))]⟩,
         ⟨500, [], []⟩⟩ (.parseResume ['r']) 600
      = (.ok (csMapJ (.obj (.cons ['o', 'k'] (.num 1) .nil))),
         [⟨.parseResume ['r'], some 600, true, 40⟩]) :=
  ⟨by decide,
   claim_C8_fenced_json (.cons ['o', 'k'] (.num 1) .nil) true [] [] ⟨500, [], []⟩
     (.parseResume ['r']) 600 (by decide)⟩

end AIResume
